import Mathlib

/-!
Verification development for a separate-chaining hash table
(`source/include/hashtbl.h` / `source/include/hashtbl.inl`, namespace `ac`).

The C++ template class `HashTbl<KeyType, DataType, KeyHash, KeyEqual>` is
shallowly embedded with `KeyType = DataType = Nat` (the concrete scenarios in
the specification use small integers and strings; the algorithms are oblivious
to the carrier).  The pluggable hash functor `KeyHash` and equality functor
`KeyEqual` are modelled by an explicit record of functions (`Config`).  The
C++ `float m_load_factor` and the load-factor comparison
`(float)m_count / (float)m_size > m_load_factor` are modelled with exact
rational arithmetic; all numbers reached by the claims are far below any
rounding threshold of IEEE single precision.  `std::size_t` arithmetic is
modelled by `Nat` (no claim approaches 2^64).  Loops are embedded as
structurally recursive functions; the loops of `is_prime` / `find_next_prime`
carry an explicit iteration budget that is proven never to be exhausted, and
the mutual recursion `insert` / `rehash` (the C++ `rehash` re-inserts through
the full `insert` member, which re-checks the load factor) carries an explicit
`fuel` parameter, with `none` meaning the C++ program would still be recursing.
-/

/-- Trial-division loop of `HashTbl::is_prime` (hashtbl.inl lines 249-254):
`while (divisor*divisor - 2*divisor + 1 <= number) { if (number % (divisor-1) == 0) return false;
if (number % (divisor+1) == 0) return false; divisor += 6; }`.  The `fuel`
argument is an iteration budget used to make the recursion structural; it is
consulted only when the C++ loop would iterate, and `is_prime` passes a budget
that is proven sufficient (`is_prime_loop_budget_irrelevant` style lemmas below
show the budget is never exhausted on the call made by `is_prime`). -/
def is_prime_loop (number : Nat) (divisor : Nat) (fuel : Nat) : Bool :=
  if divisor * divisor - 2 * divisor + 1 ≤ number then
    match fuel with
    | 0 => true
    | fuel + 1 =>
      if number % (divisor - 1) == 0 then false
      else if number % (divisor + 1) == 0 then false
      else is_prime_loop number (divisor + 6) fuel
  else true

/-- `HashTbl::is_prime` (hashtbl.inl lines 244-257): true for 2 and 3, false
for multiples of 2 or 3, otherwise trial division by 6k±1 starting at
divisor 6. -/
def is_prime (number : Nat) : Bool :=
  if number == 2 || number == 3 then true
  else if number % 2 == 0 || number % 3 == 0 then false
  else is_prime_loop number 6 number

/-- Scan loop of `HashTbl::find_next_prime` (hashtbl.inl line 234):
`while (!is_prime(n_)) n_++;`.  The `fuel` budget makes the recursion
structural; `find_next_prime` passes a budget proven sufficient (Bertrand's
postulate bounds the distance to the next value accepted by `is_prime`). -/
def find_next_prime_loop (n_ : Nat) (fuel : Nat) : Nat :=
  if is_prime n_ then n_
  else
    match fuel with
    | 0 => n_
    | fuel + 1 => find_next_prime_loop (n_ + 1) fuel

/-- `HashTbl::find_next_prime` (hashtbl.inl lines 232-236): smallest value
`≥ n_` accepted by `is_prime`. -/
def find_next_prime (n_ : Nat) : Nat :=
  find_next_prime_loop n_ (n_ + 1)

/-- `HashEntry<KeyType, DataType>` (hashtbl.h lines 17-26) with
`KeyType = DataType = Nat`. -/
structure HashEntry where
  m_key : Nat
  m_data : Nat
deriving DecidableEq, Repr

/-- The template parameters `KeyHash` / `KeyEqual` of `HashTbl` as an explicit
record of functions over the key type. -/
structure Config where
  hash : Nat → Nat
  keyEq : Nat → Nat → Bool

/-- The default template arguments `std::hash<KeyType>` /
`std::equal_to<KeyType>`: for an integral key the standard hash is the
identity and the standard equality is `==`. -/
def defaultCfg : Config :=
  { hash := fun k => k, keyEq := fun a b => a == b }

/-- A configuration whose equality functor agrees with the key type's own
`==` (as `std::equal_to` does). -/
def LawfulCfg (cfg : Config) : Prop :=
  ∀ a b, cfg.keyEq a b = (a == b)

/-- The state of a `HashTbl` object (hashtbl.h lines 36-39): `m_size` is the
bucket-array length ("Tamanho da tabela"), `m_count` the number of stored
entries, `m_load_factor` the maximum load factor (a C++ `float`, modelled
exactly as a rational), and `m_table` the owned array of
`std::forward_list<entry_type>` bucket chains. -/
structure HashTbl where
  m_size : Nat
  m_count : Nat
  m_load_factor : ℚ
  m_table : List (List HashEntry)
deriving DecidableEq, Repr

/-- Read bucket `i` of the table array (`m_table[index]`). -/
def bucketAt (t : HashTbl) (i : Nat) : List HashEntry :=
  t.m_table.getD i []

/-- The search predicate built in `insert`/`retrieve`/`erase`/`at`/`count`:
`[&key_, &keyEqual](const HashEntry e) { return keyEqual(key_, e.m_key); }`. -/
def keyPred (cfg : Config) (key : Nat) : HashEntry → Bool :=
  fun e => cfg.keyEq key e.m_key

/-- The load-factor condition checked after each mutation inside `insert`
(hashtbl.inl lines 111, 123, 128):
`(float)m_count / (float)m_size > m_load_factor`.  The definition is written
in the cross-multiplied integer form `lf.num * size < count * lf.den`
(`lf = lf.num / lf.den`, `lf.den > 0`), which is kernel-computable;
`loadFactorExceeded_iff` proves it equivalent to the division form for every
state with `m_size ≥ 1` (every constructed table; for `m_size = 0` the
cross-multiplied form also agrees with IEEE float semantics, where
`count/0.0f` is `+inf` for `count > 0` — comparing greater — and NaN for
`count = 0` — comparing not-greater). -/
def loadFactorExceeded (t : HashTbl) : Bool :=
  decide (t.m_load_factor.num * (t.m_size : ℤ) < (t.m_count : ℤ) * (t.m_load_factor.den : ℤ))

/-- Writing through a `forward_list` iterator obtained by `find_if`:
`*iterator = hashEntry;` replaces the first element satisfying the
predicate. -/
def replaceFirst (p : HashEntry → Bool) (he : HashEntry) : List HashEntry → List HashEntry
  | [] => []
  | e :: es => if p e then he :: es else e :: replaceFirst p he es

/-- A loop `for (e : list) insert(e.m_key, e.m_data)` over a given insert
operation, threading the table and failing if any insert fails (runs out of
fuel).  This is the loop shape shared by `rehash` (hashtbl.inl lines 192-195),
the initializer-list constructor (line 35) and initializer-list assignment
(line 78). -/
def insertList (ins : HashTbl → Nat → Nat → Option (Bool × HashTbl)) :
    List HashEntry → HashTbl → Option HashTbl
  | [], t => some t
  | e :: es, t =>
    match ins t e.m_key e.m_data with
    | none => none
    | some (_, t') => insertList ins es t'

/-- `HashTbl::rehash` (hashtbl.inl lines 184-198), parameterised by the insert
operation it re-enters: it doubles the size to the next prime, allocates a
fresh bucket array, resets `m_count` to 0, and re-inserts every entry of the
old array (bucket order, chain order) through the full `insert` member — which
therefore re-checks the load factor on every re-insert. -/
def rehashWith (ins : HashTbl → Nat → Nat → Option (Bool × HashTbl))
    (t : HashTbl) : Option HashTbl :=
  let newSize := find_next_prime (2 * t.m_size)
  insertList ins t.m_table.flatten
    { m_size := newSize, m_count := 0, m_load_factor := t.m_load_factor,
      m_table := List.replicate newSize [] }

/-- `HashTbl::insert` (hashtbl.inl lines 101-130).  `fuel` bounds the nesting
depth of the `insert → rehash → insert → ...` recursion present in the C++
code; `none` means the program is still recursing after exhausting the given
depth (the recursion is genuinely unbounded for non-positive load factors, see
the divergence lemmas below). -/
def insertF (cfg : Config) (fuel : Nat) (t : HashTbl) (key data : Nat) :
    Option (Bool × HashTbl) :=
  match fuel with
  | 0 => none
  | fuel + 1 =>
    let hashEntry : HashEntry := { m_key := key, m_data := data }
    let index := cfg.hash key % t.m_size
    if (bucketAt t index).isEmpty then
      let newBucket := hashEntry :: bucketAt t index
      let t1 : HashTbl :=
        { t with m_table := t.m_table.set index newBucket, m_count := t.m_count + 1 }
      if loadFactorExceeded t1 then
        (rehashWith (insertF cfg fuel) t1).map (fun t2 => (true, t2))
      else some (true, t1)
    else
      match (bucketAt t index).find? (keyPred cfg key) with
      | none =>
        let newBucket := hashEntry :: bucketAt t index
        let t1 : HashTbl :=
          { t with m_table := t.m_table.set index newBucket, m_count := t.m_count + 1 }
        if loadFactorExceeded t1 then
          (rehashWith (insertF cfg fuel) t1).map (fun t2 => (true, t2))
        else some (true, t1)
      | some _ =>
        let newBucket := replaceFirst (keyPred cfg key) hashEntry (bucketAt t index)
        let t1 : HashTbl :=
          { t with m_table := t.m_table.set index newBucket }
        if loadFactorExceeded t1 then
          (rehashWith (insertF cfg fuel) t1).map (fun t2 => (false, t2))
        else some (false, t1)
termination_by structural fuel

/-- The default constructor argument `DEFAULT_SIZE = 10` (hashtbl.h line 41)
and the constructor `HashTbl(size_type sz)` (hashtbl.inl lines 9-13):
`m_size = find_next_prime(sz)`, `m_count = 0`, `m_load_factor = 1.0`, and a
fresh array of `m_size` empty chains. -/
def mkHashTbl (sz : Nat) : HashTbl :=
  { m_size := find_next_prime sz, m_count := 0, m_load_factor := 1,
    m_table := List.replicate (find_next_prime sz) [] }

/-- All entries of the table in bucket order, chain order — the enumeration
order used by `rehash` and `operator<<`. -/
def entries (t : HashTbl) : List HashEntry :=
  t.m_table.flatten

/-- The value associated with `key` by the chain of `key`'s bucket (the scan
all member functions perform): `find_if` on bucket `hash(key) % m_size` with
the `keyEqual` predicate, projected to the data field. -/
def lookupT (cfg : Config) (t : HashTbl) (key : Nat) : Option Nat :=
  ((bucketAt t (cfg.hash key % t.m_size)).find? (keyPred cfg key)).map HashEntry.m_data

/-- Well-formedness of a table state, as established by the constructors and
preserved by every operation: the array has length `m_size ≥ 1`, `m_count`
counts all entries, keys are globally unique, and every entry sits in the
bucket its hash selects. -/
def WF (cfg : Config) (t : HashTbl) : Prop :=
  t.m_table.length = t.m_size ∧
  1 ≤ t.m_size ∧
  t.m_count = (entries t).length ∧
  ((entries t).map HashEntry.m_key).Nodup ∧
  ∀ i, i < t.m_size → ∀ e ∈ bucketAt t i, cfg.hash e.m_key % t.m_size = i

/-- `HashTbl::retrieve` (hashtbl.inl lines 159-176): returns the found flag
together with the final value of the `data_item_` output parameter (written on
success, untouched on failure). -/
def retrieve (cfg : Config) (t : HashTbl) (key : Nat) (data_item : Nat) : Bool × Nat :=
  match (bucketAt t (cfg.hash key % t.m_size)).find? (keyPred cfg key) with
  | some e => (true, e.m_data)
  | none => (false, data_item)

/-- `HashTbl::erase` (hashtbl.inl lines 206-224): if the scan finds a match,
`remove_if(predicate)` drops every matching element of the chain and `m_count`
is decremented once. -/
def erase (cfg : Config) (t : HashTbl) (key : Nat) : Bool × HashTbl :=
  let index := cfg.hash key % t.m_size
  match (bucketAt t index).find? (keyPred cfg key) with
  | some _ =>
    let newBucket := (bucketAt t index).filter (fun e => ! keyPred cfg key e)
    (true, { t with m_table := t.m_table.set index newBucket, m_count := t.m_count - 1 })
  | none => (false, t)

/-- `HashTbl::clear` (hashtbl.inl lines 136-140): empties every chain and
resets `m_count`; `m_size` and `m_load_factor` are untouched. -/
def clear (t : HashTbl) : HashTbl :=
  { t with m_table := List.replicate t.m_table.length [], m_count := 0 }

/-- `HashTbl::empty` (hashtbl.inl lines 147-150). -/
def emptyB (t : HashTbl) : Bool :=
  t.m_count == 0

/-- `HashTbl::size` (hashtbl.h line 57): returns `m_count`. -/
def size (t : HashTbl) : Nat :=
  t.m_count

/-- `HashTbl::at` (hashtbl.inl lines 289-303): the found value, or `none` for
the thrown `std::out_of_range` ("KeyNotFound") — the only failing operation.
`at` performs no mutation, which the embedding makes structural: it does not
produce a table. -/
def atT (cfg : Config) (t : HashTbl) (key : Nat) : Option Nat :=
  match (bucketAt t (cfg.hash key % t.m_size)).find? (keyPred cfg key) with
  | some e => some e.m_data
  | none => none

/-- `HashTbl::count` (hashtbl.inl lines 265-280): 0 if key not found in its
bucket, otherwise `std::distance(begin, end)` of the whole chain. -/
def countK (cfg : Config) (t : HashTbl) (key : Nat) : Nat :=
  let index := cfg.hash key % t.m_size
  match (bucketAt t index).find? (keyPred cfg key) with
  | none => 0
  | some _ => (bucketAt t index).length

/-- `HashTbl::operator[]` (hashtbl.inl lines 313-329).  Note the scan
predicate is `key_ == hashEntry.m_key` — the key type's own `==`, NOT the
`KeyEqual` functor used by every other member.  On a miss it calls
`insert(key_, DataType{})` (default value 0) and recurses.  `fuel` bounds the
recursion depth; the inner insert receives the same depth budget. -/
def index_accessF (cfg : Config) (fuel : Nat) (t : HashTbl) (key : Nat) :
    Option (Nat × HashTbl) :=
  match fuel with
  | 0 => none
  | fuel + 1 =>
    match (bucketAt t (cfg.hash key % t.m_size)).find? (fun e => key == e.m_key) with
    | some e => some (e.m_data, t)
    | none =>
      match insertF cfg (fuel + 1) t key 0 with
      | none => none
      | some (_, t') => index_accessF cfg fuel t' key
termination_by structural fuel

/-- `HashTbl::max_load_factor(float mlf)` (hashtbl.inl lines 346-349):
plain setter, never triggers a rehash. -/
def set_max_load_factor (t : HashTbl) (mlf : ℚ) : HashTbl :=
  { t with m_load_factor := mlf }

/-- The initializer-list constructor (hashtbl.inl lines 33-36): it delegates
to the DEFAULT constructor (`: HashTbl()`, capacity `find_next_prime 10`) and
then inserts every element through the normal insert path. -/
def initListCtorF (cfg : Config) (fuel : Nat) (ilist : List HashEntry) : Option HashTbl :=
  insertList (insertF cfg fuel) ilist (mkHashTbl 10)

/-- The initializer-list assignment (hashtbl.inl lines 68-81): capacity
`find_next_prime(ilist.size())`, count 0, load factor reset to 1, then every
element inserted through the normal insert path. -/
def assignInitListF (cfg : Config) (fuel : Nat) (ilist : List HashEntry) : Option HashTbl :=
  let sz := find_next_prime ilist.length
  insertList (insertF cfg fuel) ilist
    { m_size := sz, m_count := 0, m_load_factor := 1, m_table := List.replicate sz [] }

/-- A caller writing value `w` through the `DataType&` reference returned by
`at`/`operator[]` for `key`: the referenced entry's data field is overwritten
in place (the key field is untouched); if no entry is referenced the table is
unchanged. -/
def writeThrough (cfg : Config) (t : HashTbl) (key w : Nat) : HashTbl :=
  let index := cfg.hash key % t.m_size
  match (bucketAt t index).find? (keyPred cfg key) with
  | some e =>
    let newBucket := replaceFirst (keyPred cfg key) { m_key := e.m_key, m_data := w } (bucketAt t index)
    { t with m_table := t.m_table.set index newBucket }
  | none => t

/-- The association-list semantics of running `insertList` over a list of
entries: later entries override earlier ones, on top of a base lookup
function. -/
def applyEntries (es : List HashEntry) (f : Nat → Option Nat) : Nat → Option Nat :=
  match es with
  | [] => f
  | e :: es => applyEntries es (fun k => if k = e.m_key then some e.m_data else f k)

/-- One step of a client call sequence for the count-consistency property:
either `insert k v` or `erase k`. -/
inductive TblOp where
  | insOp (k v : Nat)
  | delOp (k : Nat)
deriving DecidableEq, Repr

/-- Run a call sequence, tallying the number of `insert` calls that returned
`true` (`a`) and the number of `erase` calls that returned `true` (`b`). -/
def runOps (cfg : Config) (fuel : Nat) :
    List TblOp → HashTbl → Nat → Nat → Option (HashTbl × Nat × Nat)
  | [], t, a, b => some (t, a, b)
  | TblOp.insOp k v :: ops, t, a, b =>
    match insertF cfg fuel t k v with
    | none => none
    | some (r, t') => runOps cfg fuel ops t' (if r then a + 1 else a) b
  | TblOp.delOp k :: ops, t, a, b =>
    match erase cfg t k with
    | (r, t') => runOps cfg fuel ops t' a (if r then b + 1 else b)

/-- `insert` diverges on this input: every recursion-depth budget is
exhausted (the C++ call never returns). -/
def insertDiverges (cfg : Config) (t : HashTbl) (key data : Nat) : Prop :=
  ∀ fuel, insertF cfg fuel t key data = none

instance instDecidableWF (cfg : Config) (t : HashTbl) : Decidable (WF cfg t) := by
  unfold WF
  infer_instance

/-- The per-call specification of `HashTbl::insert` on well-formed states (for
a lawful equality configuration): invariants are preserved, the load factor
setting is untouched, the capacity never shrinks (and either stays or becomes
a prime, from rehashing), the returned bool reports whether the key was
absent, the count grows by one exactly on absent keys, lookup is updated at
exactly the inserted key, and no rehash happens while the table is within its
load budget. -/
def InsertSpec (cfg : Config) (t : HashTbl) (k v : Nat) (b : Bool) (t' : HashTbl) : Prop :=
  WF cfg t' ∧
  t'.m_load_factor = t.m_load_factor ∧
  t.m_size ≤ t'.m_size ∧
  (t'.m_size = t.m_size ∨ Nat.Prime t'.m_size) ∧
  b = (lookupT cfg t k).isNone ∧
  t'.m_count = t.m_count + (if (lookupT cfg t k).isNone then 1 else 0) ∧
  (∀ k', lookupT cfg t' k' = if k' = k then some v else lookupT cfg t k') ∧
  ((t.m_count : ℚ) + 1 ≤ t.m_load_factor * (t.m_size : ℚ) → t'.m_size = t.m_size)

/-- The "key absent" intermediate table built by `insert` before its
load-factor check. -/
def insertAbsentTbl (cfg : Config) (t : HashTbl) (key data : Nat) : HashTbl :=
  { t with m_table := t.m_table.set (cfg.hash key % t.m_size) (HashEntry.mk key data :: bucketAt t (cfg.hash key % t.m_size)), m_count := t.m_count + 1 }

/-- The "key present" intermediate table built by `insert` before its
load-factor check. -/
def insertPresentTbl (cfg : Config) (t : HashTbl) (key data : Nat) : HashTbl :=
  { t with m_table := t.m_table.set (cfg.hash key % t.m_size) (replaceFirst (keyPred cfg key) (HashEntry.mk key data) (bucketAt t (cfg.hash key % t.m_size))) }

/-- The keys 1..11 with values equal to keys — concrete scenario data: these
fill a capacity-11 table exactly (load factor 11/11 = 1.0, not above 1.0). -/
def esSc1 : List HashEntry :=
  [{ m_key := 1, m_data := 1 }, { m_key := 2, m_data := 2 }, { m_key := 3, m_data := 3 },
   { m_key := 4, m_data := 4 }, { m_key := 5, m_data := 5 }, { m_key := 6, m_data := 6 },
   { m_key := 7, m_data := 7 }, { m_key := 8, m_data := 8 }, { m_key := 9, m_data := 9 },
   { m_key := 10, m_data := 10 }, { m_key := 11, m_data := 11 }]

/-- The table of the growth scenario: requested capacity 10 (so capacity 11),
holding the 11 distinct keys 1..11. -/
def tSc1 : HashTbl :=
  (insertList (insertF defaultCfg 5) esSc1 (mkHashTbl 10)).getD (mkHashTbl 0)

/-- The table after the 12th distinct insert `insert(12, 99)` into `tSc1`,
which trips the load factor and rehashes. -/
def tSc1r : HashTbl :=
  ((insertF defaultCfg 5 tSc1 12 99).getD (false, mkHashTbl 0)).2

/-- A capacity-11 table whose bucket 5 holds the three colliding keys
27, 16, 5 (all ≡ 5 mod 11), for the `count` quirk scenario. -/
def tSc4 : HashTbl :=
  (insertList (insertF defaultCfg 5)
    [{ m_key := 5, m_data := 1 }, { m_key := 16, m_data := 2 }, { m_key := 27, m_data := 3 }]
    (mkHashTbl 10)).getD (mkHashTbl 0)

/-- A configuration with a constant hash and an always-true `KeyEqual` —
legitimate template parameters that expose the `==`-versus-`KeyEqual`
discrepancy of `operator[]`. -/
def cfgAll : Config :=
  { hash := fun _ => 0, keyEq := fun _ _ => true }

/-- A two-bucket table holding the single entry `(0, 5)`. -/
def tAll : HashTbl :=
  { m_size := 2, m_count := 1, m_load_factor := 1, m_table := [[{ m_key := 0, m_data := 5 }], []] }

/-- Result of `operator[]` with key 1 on `tAll` under `cfgAll`. -/
def tAllx : HashTbl :=
  { m_size := 2, m_count := 1, m_load_factor := 1, m_table := [[{ m_key := 1, m_data := 0 }], []] }

/-- A freshly constructed table whose owner then sets `max_load_factor(0)` —
both are public operations, so this state is reachable. -/
def tZero : HashTbl :=
  set_max_load_factor (mkHashTbl 10) 0

/-- Fixture for the count-consistency scenario: two inserts of the same key
(second returns false), an erase of an absent key (returns false), a third
insert and an erase of a present key. -/
def opsSc : List TblOp :=
  [TblOp.insOp 1 10, TblOp.insOp 1 20, TblOp.delOp 2, TblOp.insOp 3 30, TblOp.delOp 1]

/-- Result state and tallies of running `opsSc` on a fresh table. -/
def runSc : HashTbl × Nat × Nat :=
  (runOps defaultCfg 5 opsSc (mkHashTbl 10) 0 0).getD (mkHashTbl 0, 0, 0)

/-- Fixture for the duplicate-overwrite behaviour of insert sequences. -/
def esDup : List HashEntry :=
  [{ m_key := 1, m_data := 10 }, { m_key := 1, m_data := 20 }, { m_key := 12, m_data := 7 }]

/-- Table obtained by inserting `esDup` into a fresh table. -/
def tDup : HashTbl :=
  (insertList (insertF defaultCfg 5) esDup (mkHashTbl 10)).getD (mkHashTbl 0)

/-- Initializer-list data with three entries, for the constructor-capacity
counterexample. -/
def esIl3 : List HashEntry :=
  [{ m_key := 1, m_data := 1 }, { m_key := 2, m_data := 2 }, { m_key := 3, m_data := 3 }]

/-- Table built by the initializer-list constructor from `esIl3`. -/
def tIl3 : HashTbl :=
  (initListCtorF defaultCfg 5 esIl3).getD (mkHashTbl 0)

/-- A capacity-1 table (requested capacity 0) holding key 1, whose owner then
sets `max_load_factor(0.25)` — reachable through the public interface. -/
def tLow : HashTbl :=
  set_max_load_factor (((insertF defaultCfg 5 (mkHashTbl 0) 1 1).getD (false, mkHashTbl 0)).2)
    (mkRat 1 4)

/-- The table after inserting key 2 into `tLow`: the reinsertion pass of the
triggered rehash re-trips the load-factor check, so the final capacity is 11,
not `find_next_prime (2 * 1) = 2`. -/
def tLowr : HashTbl :=
  ((insertF defaultCfg 5 tLow 2 2).getD (false, mkHashTbl 0)).2

/-- Result table of `insert(3, 42)` on a fresh table. -/
def tIns3 : HashTbl :=
  ((insertF defaultCfg 5 (mkHashTbl 10) 3 42).getD (false, mkHashTbl 0)).2

/-- Table built by the initializer-list assignment from `esIl3`. -/
def tAs3 : HashTbl :=
  (assignInitListF defaultCfg 5 esIl3).getD (mkHashTbl 0)

/-- Result table of `operator[]` with the absent key 4 on a fresh table. -/
def tIdx : HashTbl :=
  ((index_accessF defaultCfg 5 (mkHashTbl 10) 4).getD (0, mkHashTbl 0)).2

/-- For `d ≥ 2` the C++ loop guard expression `d*d - 2*d + 1` (evaluated in
unsigned arithmetic, which never underflows since `d*d ≥ 2*d`) equals
`(d-1)²`. -/
lemma is_prime_guard_eq (d : Nat) (h : 2 ≤ d) :
    d * d - 2 * d + 1 = (d - 1) * (d - 1) := by
  obtain ⟨e, rfl⟩ : ∃ e, d = e + 2 := ⟨d - 2, by omega⟩
  have h1 : (e + 2) * (e + 2) = e * e + 4 * e + 4 := by ring
  have h2 : (e + 2 - 1) * (e + 2 - 1) = e * e + 2 * e + 1 := by
    have h3 : e + 2 - 1 = e + 1 := by omega
    rw [h3]
    ring
  omega

/-- If the loop guard holds then the divisor is at most `number + 1`. -/
lemma is_prime_guard_le (number d : Nat) (hd : 2 ≤ d)
    (h : d * d - 2 * d + 1 ≤ number) : d ≤ number + 1 := by
  rw [is_prime_guard_eq d hd] at h
  have h1 : d - 1 ≤ (d - 1) * (d - 1) := Nat.le_mul_of_pos_left (d - 1) (by omega)
  omega

/-- The trial-division loop returns `true` on every prime `n ≥ 5` when started
at any divisor `d ≥ 6`, regardless of the remaining budget. -/
lemma is_prime_loop_true_of_prime {n : Nat} (hp : Nat.Prime n) (h5 : 5 ≤ n) :
    ∀ fuel d, 6 ≤ d → is_prime_loop n d fuel = true := by
  intro fuel
  induction fuel with
  | zero =>
    intro d _
    unfold is_prime_loop
    split <;> rfl
  | succ fuel ih =>
    intro d hd
    unfold is_prime_loop
    split
    case isTrue hg =>
      have hguard : (d - 1) * (d - 1) ≤ n := by
        rwa [is_prime_guard_eq d (by omega)] at hg
      have hbig : 5 * (d - 1) ≤ (d - 1) * (d - 1) :=
        Nat.mul_le_mul_right (d - 1) (by omega)
      have h1 : ¬ (n % (d - 1) == 0) = true := by
        simp only [beq_iff_eq]
        intro hmod
        have hdvd : (d - 1) ∣ n := Nat.dvd_of_mod_eq_zero hmod
        rcases (Nat.Prime.eq_one_or_self_of_dvd hp _ hdvd) with h' | h'
        · omega
        · rw [← h'] at hguard
          omega
      have h2 : ¬ (n % (d + 1) == 0) = true := by
        simp only [beq_iff_eq]
        intro hmod
        have hdvd : (d + 1) ∣ n := Nat.dvd_of_mod_eq_zero hmod
        rcases (Nat.Prime.eq_one_or_self_of_dvd hp _ hdvd) with h' | h'
        · omega
        · rw [← h'] at hguard
          omega
      simp only [h1, h2, if_false]
      exact ih (d + 6) (by omega)
    case isFalse => rfl

/-- The trial-division loop finds the factor `p` of `n` (with `p ≡ ±1 mod 6`,
`5 ≤ p`, `p² ≤ n`) provided it starts at a correctly aligned divisor not past
`p + 1` and the budget obeys the linear sufficiency bound. -/
lemma is_prime_loop_false_of_factor {n p : Nat} (hdvd : n % p = 0) (_hp5 : 5 ≤ p)
    (hpsq : p * p ≤ n) (hpm : p % 6 = 1 ∨ p % 6 = 5) :
    ∀ fuel d, d % 6 = 0 → 6 ≤ d → d ≤ p + 1 → n + 2 ≤ d + 6 * fuel →
      is_prime_loop n d fuel = false := by
  intro fuel
  induction fuel with
  | zero =>
    intro d hd6 hd hdp hbudget
    have hguard : d * d - 2 * d + 1 ≤ n := by
      rw [is_prime_guard_eq d (by omega)]
      calc (d - 1) * (d - 1) ≤ p * p := Nat.mul_le_mul (by omega) (by omega)
        _ ≤ n := hpsq
    have := is_prime_guard_le n d (by omega) hguard
    omega
  | succ fuel ih =>
    intro d hd6 hd hdp hbudget
    have hguard : d * d - 2 * d + 1 ≤ n := by
      rw [is_prime_guard_eq d (by omega)]
      calc (d - 1) * (d - 1) ≤ p * p := Nat.mul_le_mul (by omega) (by omega)
        _ ≤ n := hpsq
    unfold is_prime_loop
    simp only [hguard, if_true]
    by_cases h1 : (n % (d - 1) == 0) = true
    · simp [h1]
    · by_cases h2 : (n % (d + 1) == 0) = true
      · simp [h1, h2]
      · simp only [h1, h2, if_false]
        simp only [beq_iff_eq] at h1 h2
        have hne1 : p ≠ d - 1 := by
          intro h
          exact h1 (h ▸ hdvd)
        have hne2 : p ≠ d + 1 := by
          intro h
          exact h2 (h ▸ hdvd)
        have hpge : d + 6 ≤ p + 1 := by omega
        exact ih (d + 6) (by omega) (by omega) hpge (by omega)

/-- `is_prime` accepts every prime number. -/
lemma is_prime_of_prime {n : Nat} (hp : Nat.Prime n) : is_prime n = true := by
  by_cases h23 : n = 2 ∨ n = 3
  · rcases h23 with rfl | rfl <;> rfl
  · have h2 : n % 2 ≠ 0 := by
      intro h
      rcases Nat.Prime.eq_one_or_self_of_dvd hp 2 (Nat.dvd_of_mod_eq_zero h) with h' | h'
      · omega
      · exact h23 (Or.inl h'.symm)
    have h3 : n % 3 ≠ 0 := by
      intro h
      rcases Nat.Prime.eq_one_or_self_of_dvd hp 3 (Nat.dvd_of_mod_eq_zero h) with h' | h'
      · omega
      · exact h23 (Or.inr h'.symm)
    have h5 : 5 ≤ n := by
      have := hp.two_le
      omega
    unfold is_prime
    have hb : (n == 2 || n == 3) = false := by
      simp only [Bool.or_eq_false_iff, beq_eq_false_iff_ne]
      omega
    have hb2 : (n % 2 == 0 || n % 3 == 0) = false := by
      simp only [Bool.or_eq_false_iff, beq_eq_false_iff_ne]
      exact ⟨h2, h3⟩
    rw [hb, hb2]
    simp only [Bool.false_eq_true, if_false]
    exact is_prime_loop_true_of_prime hp h5 n 6 (by omega)

/-- `is_prime` rejects every composite number. -/
lemma is_prime_eq_false_of_not_prime {n : Nat} (h2 : 2 ≤ n) (hnp : ¬ Nat.Prime n) :
    is_prime n = false := by
  have hn2 : n ≠ 2 := fun h => hnp (h ▸ Nat.prime_two)
  have hn3 : n ≠ 3 := fun h => hnp (h ▸ Nat.prime_three)
  unfold is_prime
  have hb : (n == 2 || n == 3) = false := by
    simp only [Bool.or_eq_false_iff, beq_eq_false_iff_ne]
    exact ⟨hn2, hn3⟩
  rw [hb]
  simp only [Bool.false_eq_true, if_false]
  by_cases hmod : (n % 2 == 0 || n % 3 == 0) = true
  · rw [hmod]
    rfl
  · rw [Bool.not_eq_true] at hmod
    rw [hmod]
    simp only [Bool.false_eq_true, if_false]
    rw [Bool.or_eq_false_iff] at hmod
    obtain ⟨hm2, hm3⟩ := hmod
    rw [beq_eq_false_iff_ne] at hm2 hm3
    set p := n.minFac with hpdef
    have hpp : Nat.Prime p := Nat.minFac_prime (by omega)
    have hpdvd : p ∣ n := Nat.minFac_dvd n
    have hppos : 0 < p := hpp.pos
    have hnp0 : n % p = 0 := by
      obtain ⟨c, hc⟩ := hpdvd
      rw [hc]
      exact Nat.mul_mod_right p c
    have hpsq : p * p ≤ n := by
      have h := @Nat.minFac_sq_le_self n (by omega) hnp
      rw [pow_two] at h
      exact h
    have hp2 : p ≠ 2 := fun h => hm2 (h ▸ hnp0)
    have hp3 : p ≠ 3 := fun h => hm3 (h ▸ hnp0)
    have hp5 : 5 ≤ p := by
      have h2le := hpp.two_le
      by_contra hlt
      push_neg at hlt
      interval_cases p
      · exact hp2 rfl
      · exact hp3 rfl
      · exact absurd hpp (by decide)
    have hpm2 : p % 2 = 1 := by
      rcases Nat.mod_two_eq_zero_or_one p with h | h
      · exact absurd ((Nat.Prime.eq_one_or_self_of_dvd hpp 2
          (Nat.dvd_of_mod_eq_zero h)).resolve_left (by omega)).symm hp2
      · exact h
    have hpm3 : p % 3 ≠ 0 := by
      intro h
      exact hp3 ((Nat.Prime.eq_one_or_self_of_dvd hpp 3
        (Nat.dvd_of_mod_eq_zero h)).resolve_left (by omega)).symm
    have hpm : p % 6 = 1 ∨ p % 6 = 5 := by omega
    exact is_prime_loop_false_of_factor hnp0 hp5 hpsq hpm n 6 rfl (by omega)
      (by omega) (by omega)

/-- Characterisation of `is_prime`: it accepts exactly the primes together
with the non-prime value 1 (the loop never runs for 1, so 1 is accepted). -/
theorem is_prime_iff (n : Nat) : is_prime n = true ↔ (Nat.Prime n ∨ n = 1) := by
  constructor
  · intro h
    by_cases h1 : n = 1
    · exact Or.inr h1
    · left
      by_contra hnp
      rcases Nat.lt_or_ge n 2 with hlt | hge
      · interval_cases n
        · exact absurd h (by decide)
        · exact h1 rfl
      · rw [is_prime_eq_false_of_not_prime hge hnp] at h
        exact absurd h (by decide)
  · intro h
    rcases h with hp | rfl
    · exact is_prime_of_prime hp
    · decide

/-- The `find_next_prime` scan loop: given that some value accepted by
`is_prime` lies within the budget, the loop returns the least accepted value
`≥ n` (so the budget is never exhausted). -/
lemma find_next_prime_loop_spec :
    ∀ fuel n, (∃ m, n ≤ m ∧ m ≤ n + fuel ∧ is_prime m = true) →
      n ≤ find_next_prime_loop n fuel ∧
      is_prime (find_next_prime_loop n fuel) = true ∧
      ∀ j, n ≤ j → j < find_next_prime_loop n fuel → is_prime j = false := by
  intro fuel
  induction fuel with
  | zero =>
    rintro n ⟨m, hm1, hm2, hm3⟩
    have hmn : m = n := by omega
    subst hmn
    have hval : find_next_prime_loop m 0 = m := by
      rw [find_next_prime_loop]
      simp [hm3]
    rw [hval]
    exact ⟨le_refl _, hm3, fun j h1 h2 => by omega⟩
  | succ fuel ih =>
    rintro n ⟨m, hm1, hm2, hm3⟩
    by_cases hn : is_prime n = true
    · have hval : find_next_prime_loop n (fuel + 1) = n := by
        rw [find_next_prime_loop]
        simp [hn]
      rw [hval]
      exact ⟨le_refl _, hn, fun j h1 h2 => by omega⟩
    · rw [Bool.not_eq_true] at hn
      have hstep : find_next_prime_loop n (fuel + 1) = find_next_prime_loop (n + 1) fuel := by
        rw [find_next_prime_loop, hn]
        simp
      have hmn : n + 1 ≤ m := by
        rcases Nat.eq_or_lt_of_le hm1 with h | h
        · rw [h, hm3] at hn
          exact absurd hn (by decide)
        · exact h
      obtain ⟨ih1, ih2, ih3⟩ := ih (n + 1) ⟨m, hmn, by omega, hm3⟩
      rw [hstep]
      refine ⟨by omega, ih2, fun j h1 h2 => ?_⟩
      rcases Nat.eq_or_lt_of_le h1 with h | h
      · exact h ▸ hn
      · exact ih3 j h h2

/-- Some value accepted by `is_prime` lies in `[n, n + (n+1)]`: for `n ≤ 1`
the value 1, otherwise `n` itself or a Bertrand prime in `(n, 2n]`. -/
lemma exists_is_prime_within (n : Nat) :
    ∃ m, n ≤ m ∧ m ≤ n + (n + 1) ∧ is_prime m = true := by
  rcases Nat.lt_or_ge n 2 with h | h
  · exact ⟨1, by omega, by omega, by decide⟩
  · by_cases hp : Nat.Prime n
    · exact ⟨n, le_refl _, by omega, is_prime_of_prime hp⟩
    · obtain ⟨p, hpp, hlt, hle⟩ := Nat.exists_prime_lt_and_le_two_mul n (by omega)
      exact ⟨p, by omega, by omega, is_prime_of_prime hpp⟩

/-- `find_next_prime` does not go below its argument. -/
lemma find_next_prime_ge (n : Nat) : n ≤ find_next_prime n :=
  (find_next_prime_loop_spec _ _ (exists_is_prime_within n)).1

/-- `find_next_prime` returns a value accepted by `is_prime`. -/
lemma find_next_prime_is_prime (n : Nat) : is_prime (find_next_prime n) = true :=
  (find_next_prime_loop_spec _ _ (exists_is_prime_within n)).2.1

/-- `find_next_prime` returns the least accepted value `≥ n`. -/
lemma find_next_prime_least (n : Nat) :
    ∀ j, n ≤ j → j < find_next_prime n → is_prime j = false :=
  (find_next_prime_loop_spec _ _ (exists_is_prime_within n)).2.2

/-- `find_next_prime` never returns 0 (0 is rejected by `is_prime`). -/
lemma find_next_prime_pos (n : Nat) : 1 ≤ find_next_prime n := by
  by_contra h
  push_neg at h
  have h0 : find_next_prime n = 0 := by omega
  have := find_next_prime_is_prime n
  rw [h0] at this
  exact absurd this (by decide)

/-- For requests `≥ 2` the value returned by `find_next_prime` is a genuine
prime number. -/
lemma find_next_prime_prime {n : Nat} (h : 2 ≤ n) : Nat.Prime (find_next_prime n) := by
  have h1 := find_next_prime_is_prime n
  have h2 := find_next_prime_ge n
  rcases (is_prime_iff _).mp h1 with hp | h1'
  · exact hp
  · omega

lemma lawful_defaultCfg : LawfulCfg defaultCfg := fun _ _ => rfl

/-- The cross-multiplied load-factor test agrees with the source's division
form `(float)m_count / (float)m_size > m_load_factor` on every table whose
bucket array is non-empty. -/
lemma loadFactorExceeded_iff (t : HashTbl) (h : 1 ≤ t.m_size) :
    loadFactorExceeded t = true ↔ t.m_load_factor < (t.m_count : ℚ) / (t.m_size : ℚ) := by
  unfold loadFactorExceeded
  rw [decide_eq_true_eq]
  have hsize : (0:ℚ) < (t.m_size : ℚ) := by
    have : 0 < t.m_size := h
    exact_mod_cast this
  have hden : (0:ℚ) < (t.m_load_factor.den : ℚ) := by
    have := t.m_load_factor.pos
    exact_mod_cast this
  rw [lt_div_iff₀ hsize]
  have hid : (t.m_load_factor.num : ℚ) * (t.m_size : ℚ) / (t.m_load_factor.den : ℚ)
      = t.m_load_factor * (t.m_size : ℚ) := by
    have hnd : (t.m_load_factor.num : ℚ) / (t.m_load_factor.den : ℚ) = t.m_load_factor :=
      Rat.num_div_den _
    calc (t.m_load_factor.num : ℚ) * (t.m_size : ℚ) / (t.m_load_factor.den : ℚ)
        = (t.m_load_factor.num : ℚ) / (t.m_load_factor.den : ℚ) * (t.m_size : ℚ) := by ring
      _ = t.m_load_factor * (t.m_size : ℚ) := by rw [hnd]
  constructor
  · intro hlt
    rw [← hid, div_lt_iff₀ hden]
    exact_mod_cast hlt
  · intro hlt
    rw [← hid, div_lt_iff₀ hden] at hlt
    exact_mod_cast hlt

lemma getD_replicate_nil : ∀ (n i : Nat), (List.replicate n ([] : List HashEntry)).getD i [] = []
  | 0, _ => rfl
  | _ + 1, 0 => rfl
  | n + 1, i + 1 => getD_replicate_nil n i

lemma flatten_replicate_nil : ∀ (n : Nat), (List.replicate n ([] : List HashEntry)).flatten = []
  | 0 => rfl
  | n + 1 => by
    rw [List.replicate_succ, List.flatten_cons, flatten_replicate_nil n]
    rfl

lemma getD_set_self (L : List (List HashEntry)) (i : Nat) (b : List HashEntry)
    (h : i < L.length) : (L.set i b).getD i [] = b := by
  rw [List.getD_eq_getElem?_getD, List.getElem?_set_self h]
  rfl

lemma getD_set_ne (L : List (List HashEntry)) {i j : Nat} (b : List HashEntry)
    (h : i ≠ j) : (L.set i b).getD j [] = L.getD j [] := by
  rw [List.getD_eq_getElem?_getD, List.getElem?_set_ne h, ← List.getD_eq_getElem?_getD]

lemma flatten_set (L : List (List HashEntry)) (i : Nat) (b : List HashEntry)
    (h : i < L.length) :
    (L.set i b).flatten = (L.take i).flatten ++ b ++ (L.drop (i + 1)).flatten := by
  rw [List.set_eq_take_append_cons_drop, if_pos h, List.flatten_append, List.flatten_cons,
    List.append_assoc]

lemma flatten_decomp (L : List (List HashEntry)) (i : Nat) (h : i < L.length) :
    L.flatten = (L.take i).flatten ++ L.getD i [] ++ (L.drop (i + 1)).flatten := by
  conv_lhs => rw [← List.take_append_drop i L]
  rw [List.flatten_append, List.drop_eq_getElem_cons h, List.flatten_cons,
    List.getD_eq_getElem L [] h, List.append_assoc]

lemma replaceFirst_length (p : HashEntry → Bool) (he : HashEntry) :
    ∀ l, (replaceFirst p he l).length = l.length
  | [] => rfl
  | e :: es => by
    unfold replaceFirst
    split
    · rfl
    · simp only [List.length_cons, replaceFirst_length p he es]

lemma replaceFirst_map_key (p : HashEntry → Bool) (he : HashEntry)
    (hall : ∀ e, p e = true → e.m_key = he.m_key) :
    ∀ l, (replaceFirst p he l).map HashEntry.m_key = l.map HashEntry.m_key
  | [] => rfl
  | e :: es => by
    unfold replaceFirst
    split
    case isTrue hp =>
      simp only [List.map_cons, hall e hp]
    case isFalse =>
      simp only [List.map_cons, replaceFirst_map_key p he hall es]

lemma mem_replaceFirst (p : HashEntry → Bool) (he : HashEntry) :
    ∀ l e', e' ∈ replaceFirst p he l → e' = he ∨ e' ∈ l
  | [], _, h => by simp [replaceFirst] at h
  | e :: es, e', h => by
    unfold replaceFirst at h
    split at h
    · rcases List.mem_cons.mp h with h' | h'
      · exact Or.inl h'
      · exact Or.inr (List.mem_cons_of_mem e h')
    · rcases List.mem_cons.mp h with h' | h'
      · exact Or.inr (h' ▸ List.mem_cons_self e es)
      · rcases mem_replaceFirst p he es e' h' with h'' | h''
        · exact Or.inl h''
        · exact Or.inr (List.mem_cons_of_mem e h'')

lemma find?_replaceFirst_self (p : HashEntry → Bool) (he : HashEntry) (hp : p he = true) :
    ∀ l, (l.find? p).isSome → (replaceFirst p he l).find? p = some he
  | [], h => by simp at h
  | e :: es, h => by
    unfold replaceFirst
    split
    case isTrue => exact List.find?_cons_of_pos _ hp
    case isFalse hpe =>
      rw [List.find?_cons_of_neg _ hpe]
      rw [List.find?_cons_of_neg _ hpe] at h
      exact find?_replaceFirst_self p he hp es h

lemma find?_replaceFirst_other (p p' : HashEntry → Bool) (he : HashEntry)
    (hp' : p' he = false) (hcompat : ∀ e, p e = true → p' e = false) :
    ∀ l, (replaceFirst p he l).find? p' = l.find? p'
  | [] => rfl
  | e :: es => by
    unfold replaceFirst
    split
    case isTrue hpe =>
      rw [List.find?_cons_of_neg _ (by rw [hp']; exact fun h => nomatch h),
        List.find?_cons_of_neg _ (by rw [hcompat e hpe]; exact fun h => nomatch h)]
    case isFalse hpe =>
      by_cases hp'e : p' e = true
      · rw [List.find?_cons_of_pos _ hp'e, List.find?_cons_of_pos _ hp'e]
      · rw [List.find?_cons_of_neg _ hp'e, List.find?_cons_of_neg _ hp'e]
        exact find?_replaceFirst_other p p' he hp' hcompat es

lemma nodup_key_unique {l : List HashEntry} (h : (l.map HashEntry.m_key).Nodup)
    {e1 e2 : HashEntry} (h1 : e1 ∈ l) (h2 : e2 ∈ l) (hk : e1.m_key = e2.m_key) :
    e1 = e2 :=
  List.inj_on_of_nodup_map h h1 h2 hk

lemma countP_key_eq_one {l : List HashEntry} (hnd : (l.map HashEntry.m_key).Nodup)
    {k v : Nat} (hm : HashEntry.mk k v ∈ l) :
    l.countP (fun e => e.m_key == k) = 1 := by
  induction l with
  | nil => simp at hm
  | cons e es ih =>
    simp only [List.map_cons, List.nodup_cons] at hnd
    rcases List.mem_cons.mp hm with h | h
    · have hek : e.m_key = k := by rw [← h]
      have hz : List.countP (fun e => e.m_key == k) es = 0 := by
        rw [List.countP_eq_zero]
        intro a ha
        simp only [beq_iff_eq]
        intro hak
        apply hnd.1
        rw [hek, ← hak]
        exact List.mem_map_of_mem HashEntry.m_key ha
      rw [List.countP_cons, hz]
      simp [hek]
    · have hek : e.m_key ≠ k := by
        intro heq
        have : k ∈ es.map HashEntry.m_key := by
          rw [← show (HashEntry.mk k v).m_key = k from rfl]
          exact List.mem_map_of_mem HashEntry.m_key h
        exact hnd.1 (heq ▸ this)
      rw [List.countP_cons, if_neg (by simp [hek]), ih hnd.2 h]

lemma keyPred_lawful {cfg : Config} (hL : LawfulCfg cfg) (k : Nat) (e : HashEntry) :
    keyPred cfg k e = (k == e.m_key) :=
  hL k e.m_key

lemma hash_mod_lt (cfg : Config) (t : HashTbl) (h : 1 ≤ t.m_size) (k : Nat) :
    cfg.hash k % t.m_size < t.m_size :=
  Nat.mod_lt _ (by omega)

lemma mem_entries_of_mem_bucket {t : HashTbl}
    (hlen : t.m_table.length = t.m_size) {i : Nat} (hi : i < t.m_size)
    {e : HashEntry} (he : e ∈ bucketAt t i) : e ∈ entries t := by
  unfold entries
  rw [List.mem_flatten]
  refine ⟨bucketAt t i, ?_, he⟩
  unfold bucketAt
  rw [List.getD_eq_getElem t.m_table [] (by omega)]
  exact List.getElem_mem _

lemma mem_bucket_of_mem_entries {cfg : Config} {t : HashTbl} (hWF : WF cfg t)
    {e : HashEntry} (he : e ∈ entries t) :
    e ∈ bucketAt t (cfg.hash e.m_key % t.m_size) := by
  obtain ⟨hlen, hsz, hcnt, hnd, hbc⟩ := hWF
  unfold entries at he
  rw [List.mem_flatten] at he
  obtain ⟨l, hl, hel⟩ := he
  obtain ⟨j, hj, hlj⟩ := List.getElem_of_mem hl
  have hjs : j < t.m_size := by omega
  have hbj : bucketAt t j = l := by
    unfold bucketAt
    rw [List.getD_eq_getElem t.m_table [] hj, hlj]
  have := hbc j hjs e (by rw [hbj]; exact hel)
  rw [this, hbj]
  exact hel

/-- Under a lawful equality configuration and the table invariants, the
bucket scan finds exactly the (unique) entry stored for the key. -/
lemma lookupT_some_iff_mem {cfg : Config} (hL : LawfulCfg cfg) {t : HashTbl}
    (hWF : WF cfg t) (k v : Nat) :
    lookupT cfg t k = some v ↔ HashEntry.mk k v ∈ entries t := by
  have hWF' := hWF
  obtain ⟨hlen, hsz, hcnt, hnd, hbc⟩ := hWF'
  constructor
  · intro h
    unfold lookupT at h
    rcases hf : (bucketAt t (cfg.hash k % t.m_size)).find? (keyPred cfg k) with _ | e
    · rw [hf] at h
      exact absurd h (by simp)
    · rw [hf] at h
      have hdv : e.m_data = v := by simpa using h
      have hpe : keyPred cfg k e = true := List.find?_some hf
      rw [keyPred_lawful hL, beq_iff_eq] at hpe
      have hev : e = HashEntry.mk k v := by
        cases e
        simp_all
      rw [← hev]
      exact mem_entries_of_mem_bucket hlen (hash_mod_lt cfg t hsz k) (List.mem_of_find?_eq_some hf)
  · intro h
    have hb := mem_bucket_of_mem_entries ⟨hlen, hsz, hcnt, hnd, hbc⟩ h
    unfold lookupT
    rcases hf : (bucketAt t (cfg.hash k % t.m_size)).find? (keyPred cfg k) with _ | e
    · rw [List.find?_eq_none] at hf
      exact absurd (hf _ hb) (by rw [keyPred_lawful hL]; simp)
    · have hpe : keyPred cfg k e = true := List.find?_some hf
      rw [keyPred_lawful hL, beq_iff_eq] at hpe
      have hmem : e ∈ entries t :=
        mem_entries_of_mem_bucket hlen (hash_mod_lt cfg t hsz k) (List.mem_of_find?_eq_some hf)
      have : e = HashEntry.mk k v := nodup_key_unique hnd hmem h (by rw [← hpe])
      rw [this]
      rfl

lemma lookupT_isSome_iff {cfg : Config} (hL : LawfulCfg cfg) {t : HashTbl}
    (hWF : WF cfg t) (k : Nat) :
    (lookupT cfg t k).isSome ↔ k ∈ (entries t).map HashEntry.m_key := by
  constructor
  · intro h
    rcases hv : lookupT cfg t k with _ | v
    · rw [hv] at h
      exact absurd h (by simp)
    · have := (lookupT_some_iff_mem hL hWF k v).mp hv
      exact List.mem_map_of_mem HashEntry.m_key this
  · intro h
    rw [List.mem_map] at h
    obtain ⟨e, he, hek⟩ := h
    have : e = HashEntry.mk k e.m_data := by
      cases e
      simp_all
    rw [this] at he
    rw [(lookupT_some_iff_mem hL hWF k e.m_data).mpr he]
    rfl

lemma lookupT_none_iff {cfg : Config} (hL : LawfulCfg cfg) {t : HashTbl}
    (hWF : WF cfg t) (k : Nat) :
    lookupT cfg t k = none ↔ k ∉ (entries t).map HashEntry.m_key := by
  rw [← lookupT_isSome_iff hL hWF k]
  rcases h : lookupT cfg t k with _ | v <;> simp [h]

lemma lookupT_mkHashTbl (cfg : Config) (sz k : Nat) :
    lookupT cfg (mkHashTbl sz) k = none := by
  unfold lookupT mkHashTbl bucketAt
  simp only [getD_replicate_nil]
  rfl

lemma entries_mkHashTbl (sz : Nat) : entries (mkHashTbl sz) = [] := by
  unfold entries mkHashTbl
  exact flatten_replicate_nil _

lemma WF_mkHashTbl (cfg : Config) (sz : Nat) : WF cfg (mkHashTbl sz) := by
  refine ⟨by simp [mkHashTbl], by simp [mkHashTbl, find_next_prime_pos], ?_, ?_, ?_⟩
  · rw [entries_mkHashTbl]
    rfl
  · rw [entries_mkHashTbl]
    exact List.nodup_nil
  · intro i hi e he
    unfold mkHashTbl bucketAt at he
    simp only [getD_replicate_nil] at he
    exact absurd he (List.not_mem_nil e)

/-- Effect of the "key absent" mutation of `insert` (`push_front` + `m_count++`,
before the load-factor check): the invariants are preserved and the lookup
function is updated at exactly the inserted key. -/
lemma insert_mutation_absent {cfg : Config} (hL : LawfulCfg cfg) {t t1 : HashTbl}
    (hWF : WF cfg t) (k v : Nat) (habs : lookupT cfg t k = none)
    (ht1 : t1 = { t with m_table := t.m_table.set (cfg.hash k % t.m_size) (HashEntry.mk k v :: bucketAt t (cfg.hash k % t.m_size)), m_count := t.m_count + 1 }) :
    WF cfg t1 ∧ t1.m_size = t.m_size ∧ t1.m_load_factor = t.m_load_factor ∧
    t1.m_count = t.m_count + 1 ∧
    (∀ k', lookupT cfg t1 k' = if k' = k then some v else lookupT cfg t k') := by
  have hWF0 := hWF
  obtain ⟨hlen, hsz, hcnt, hnd, hbc⟩ := hWF
  have hidx : cfg.hash k % t.m_size < t.m_size := hash_mod_lt cfg t hsz k
  have hidxl : cfg.hash k % t.m_size < t.m_table.length := by omega
  have hE1 : entries t1 = (t.m_table.take (cfg.hash k % t.m_size)).flatten ++ (HashEntry.mk k v :: bucketAt t (cfg.hash k % t.m_size)) ++ (t.m_table.drop (cfg.hash k % t.m_size + 1)).flatten := by
    rw [ht1]
    exact flatten_set _ _ _ hidxl
  have hE0 : entries t = (t.m_table.take (cfg.hash k % t.m_size)).flatten ++ bucketAt t (cfg.hash k % t.m_size) ++ (t.m_table.drop (cfg.hash k % t.m_size + 1)).flatten :=
    flatten_decomp _ _ hidxl
  have hsize1 : t1.m_size = t.m_size := by rw [ht1]
  have hlf1 : t1.m_load_factor = t.m_load_factor := by rw [ht1]
  have hcnt1 : t1.m_count = t.m_count + 1 := by rw [ht1]
  have hknot : k ∉ (entries t).map HashEntry.m_key := (lookupT_none_iff hL hWF0 k).mp habs
  refine ⟨⟨?_, ?_, ?_, ?_, ?_⟩, hsize1, hlf1, hcnt1, ?_⟩
  · rw [ht1]
    simp only [List.length_set]
    exact hlen
  · omega
  · rw [hE1, hcnt1]
    rw [hE0] at hcnt
    simp only [List.length_append, List.length_cons] at hcnt ⊢
    omega
  · rw [hE1]
    simp only [List.map_append, List.map_cons]
    rw [List.append_assoc, List.cons_append, List.nodup_middle, List.nodup_cons]
    rw [hE0] at hnd hknot
    simp only [List.map_append] at hnd hknot
    rw [List.append_assoc] at hnd hknot
    exact ⟨fun h => hknot h, hnd⟩
  · intro i hi e he
    rw [hsize1] at hi
    rw [hsize1]
    have hbuck : bucketAt t1 i = if i = cfg.hash k % t.m_size then HashEntry.mk k v :: bucketAt t (cfg.hash k % t.m_size) else bucketAt t i := by
      rw [ht1]
      unfold bucketAt
      split
      case isTrue h => rw [h, getD_set_self _ _ _ hidxl]
      case isFalse h => rw [getD_set_ne _ _ (fun hh => h hh.symm)]
    rw [hbuck] at he
    split at he
    case isTrue h =>
      rcases List.mem_cons.mp he with h' | h'
      · rw [h', h]
      · rw [hbc _ hidx e h', h]
    case isFalse h => exact hbc i hi e he
  · intro k'
    have hbucks : ∀ j, j ≠ cfg.hash k % t.m_size → bucketAt t1 j = bucketAt t j := by
      intro j hj
      rw [ht1]
      unfold bucketAt
      rw [getD_set_ne _ _ (fun hh => hj hh.symm)]
    have hbucke : bucketAt t1 (cfg.hash k % t.m_size) = HashEntry.mk k v :: bucketAt t (cfg.hash k % t.m_size) := by
      rw [ht1]
      unfold bucketAt
      rw [getD_set_self _ _ _ hidxl]
    by_cases hk' : k' = k
    · subst hk'
      rw [if_pos rfl]
      unfold lookupT
      rw [hsize1, hbucke, List.find?_cons_of_pos _ (by rw [keyPred_lawful hL]; simp)]
      rfl
    · rw [if_neg hk']
      unfold lookupT
      rw [hsize1]
      by_cases hii : cfg.hash k' % t.m_size = cfg.hash k % t.m_size
      · rw [hii, hbucke, List.find?_cons_of_neg _ (by rw [keyPred_lawful hL]; simp [hk'])]
      · rw [hbucks _ hii]

/-- Effect of the "key present" mutation of `insert` (`*iterator = hashEntry`,
`m_count` untouched, before the load-factor check): the invariants are
preserved and the lookup function is updated at exactly the overwritten
key. -/
lemma insert_mutation_present {cfg : Config} (hL : LawfulCfg cfg) {t t1 : HashTbl}
    (hWF : WF cfg t) (k v v0 : Nat) (hpres : lookupT cfg t k = some v0)
    (ht1 : t1 = { t with m_table := t.m_table.set (cfg.hash k % t.m_size) (replaceFirst (keyPred cfg k) (HashEntry.mk k v) (bucketAt t (cfg.hash k % t.m_size))) }) :
    WF cfg t1 ∧ t1.m_size = t.m_size ∧ t1.m_load_factor = t.m_load_factor ∧
    t1.m_count = t.m_count ∧
    (∀ k', lookupT cfg t1 k' = if k' = k then some v else lookupT cfg t k') := by
  have hWF0 := hWF
  obtain ⟨hlen, hsz, hcnt, hnd, hbc⟩ := hWF
  have hidx : cfg.hash k % t.m_size < t.m_size := hash_mod_lt cfg t hsz k
  have hidxl : cfg.hash k % t.m_size < t.m_table.length := by omega
  obtain ⟨e0, hfind⟩ : ∃ e0, (bucketAt t (cfg.hash k % t.m_size)).find? (keyPred cfg k) = some e0 := by
    unfold lookupT at hpres
    rcases hf : (bucketAt t (cfg.hash k % t.m_size)).find? (keyPred cfg k) with _ | e0
    · rw [hf] at hpres
      exact absurd hpres (by simp)
    · exact ⟨e0, rfl⟩
  have hall : ∀ e, keyPred cfg k e = true → e.m_key = (HashEntry.mk k v).m_key := by
    intro e h
    rw [keyPred_lawful hL, beq_iff_eq] at h
    exact h.symm
  have hmapkey : (replaceFirst (keyPred cfg k) (HashEntry.mk k v) (bucketAt t (cfg.hash k % t.m_size))).map HashEntry.m_key = (bucketAt t (cfg.hash k % t.m_size)).map HashEntry.m_key :=
    replaceFirst_map_key _ _ hall _
  have hlenb : (replaceFirst (keyPred cfg k) (HashEntry.mk k v) (bucketAt t (cfg.hash k % t.m_size))).length = (bucketAt t (cfg.hash k % t.m_size)).length :=
    replaceFirst_length _ _ _
  have hE1 : entries t1 = (t.m_table.take (cfg.hash k % t.m_size)).flatten ++ replaceFirst (keyPred cfg k) (HashEntry.mk k v) (bucketAt t (cfg.hash k % t.m_size)) ++ (t.m_table.drop (cfg.hash k % t.m_size + 1)).flatten := by
    rw [ht1]
    exact flatten_set _ _ _ hidxl
  have hE0 : entries t = (t.m_table.take (cfg.hash k % t.m_size)).flatten ++ bucketAt t (cfg.hash k % t.m_size) ++ (t.m_table.drop (cfg.hash k % t.m_size + 1)).flatten :=
    flatten_decomp _ _ hidxl
  have hsize1 : t1.m_size = t.m_size := by rw [ht1]
  have hlf1 : t1.m_load_factor = t.m_load_factor := by rw [ht1]
  have hcnt1 : t1.m_count = t.m_count := by rw [ht1]
  have hkeys : (entries t1).map HashEntry.m_key = (entries t).map HashEntry.m_key := by
    rw [hE1, hE0]
    simp only [List.map_append]
    rw [hmapkey]
  refine ⟨⟨?_, ?_, ?_, ?_, ?_⟩, hsize1, hlf1, hcnt1, ?_⟩
  · rw [ht1]
    simp only [List.length_set]
    exact hlen
  · omega
  · rw [hcnt1, hE1]
    rw [hE0] at hcnt
    simp only [List.length_append] at hcnt ⊢
    omega
  · rw [hkeys]
    exact hnd
  · intro i hi e he
    rw [hsize1] at hi
    rw [hsize1]
    have hbuck : bucketAt t1 i = if i = cfg.hash k % t.m_size then replaceFirst (keyPred cfg k) (HashEntry.mk k v) (bucketAt t (cfg.hash k % t.m_size)) else bucketAt t i := by
      rw [ht1]
      unfold bucketAt
      split
      case isTrue h => rw [h, getD_set_self _ _ _ hidxl]
      case isFalse h => rw [getD_set_ne _ _ (fun hh => h hh.symm)]
    rw [hbuck] at he
    split at he
    case isTrue h =>
      rcases mem_replaceFirst _ _ _ _ he with h' | h'
      · rw [h', h]
      · rw [hbc _ hidx e h', h]
    case isFalse h => exact hbc i hi e he
  · intro k'
    have hbucks : ∀ j, j ≠ cfg.hash k % t.m_size → bucketAt t1 j = bucketAt t j := by
      intro j hj
      rw [ht1]
      unfold bucketAt
      rw [getD_set_ne _ _ (fun hh => hj hh.symm)]
    have hbucke : bucketAt t1 (cfg.hash k % t.m_size) = replaceFirst (keyPred cfg k) (HashEntry.mk k v) (bucketAt t (cfg.hash k % t.m_size)) := by
      rw [ht1]
      unfold bucketAt
      rw [getD_set_self _ _ _ hidxl]
    by_cases hk' : k' = k
    · subst hk'
      rw [if_pos rfl]
      unfold lookupT
      rw [hsize1, hbucke, find?_replaceFirst_self _ _ (by rw [keyPred_lawful hL]; simp) _ (by rw [hfind]; rfl)]
      rfl
    · rw [if_neg hk']
      unfold lookupT
      rw [hsize1]
      by_cases hii : cfg.hash k' % t.m_size = cfg.hash k % t.m_size
      · have hcompat : ∀ e, keyPred cfg k e = true → keyPred cfg k' e = false := by
          intro e h
          rw [keyPred_lawful hL, beq_iff_eq] at h
          rw [keyPred_lawful hL]
          simp [← h, hk']
        rw [hii, hbucke, find?_replaceFirst_other _ _ _ (by rw [keyPred_lawful hL]; simp [hk']) hcompat _]
      · rw [hbucks _ hii]

lemma applyEntries_congr : ∀ (es : List HashEntry) (f g : Nat → Option Nat),
    (∀ k, f k = g k) → ∀ k, applyEntries es f k = applyEntries es g k
  | [], f, g, hfg, k => hfg k
  | e :: es, f, g, hfg, k => by
    unfold applyEntries
    exact applyEntries_congr es _ _ (fun k' => by by_cases h : k' = e.m_key <;> simp [h, hfg k']) k

lemma applyEntries_nodup : ∀ (es : List HashEntry),
    ((es.map HashEntry.m_key).Nodup) → ∀ (g : Nat → Option Nat) (k : Nat),
    applyEntries es g k =
      match es.find? (fun e => k == e.m_key) with
      | some e => some e.m_data
      | none => g k
  | [], _, g, k => rfl
  | e :: es, hnd, g, k => by
    simp only [List.map_cons, List.nodup_cons] at hnd
    unfold applyEntries
    rw [applyEntries_nodup es hnd.2]
    by_cases hk : k = e.m_key
    · rw [List.find?_cons_of_pos _ (by simp [hk])]
      have hnone : es.find? (fun e2 => k == e2.m_key) = none := by
        rw [List.find?_eq_none]
        intro x hx
        simp only [beq_iff_eq]
        intro hkx
        apply hnd.1
        rw [← hk, hkx]
        exact List.mem_map_of_mem HashEntry.m_key hx
      rw [hnone]
      simp [hk]
    · rw [List.find?_cons_of_neg _ (by simp [hk])]
      rcases hfe : es.find? (fun e2 => k == e2.m_key) with _ | e2
      · rw [hfe]
        simp [hk]
      · rw [hfe]

/-- The association-list semantics of the entry enumeration of a well-formed
table is exactly its lookup function. -/
lemma applyEntries_entries {cfg : Config} (hL : LawfulCfg cfg) {t : HashTbl}
    (hWF : WF cfg t) (k : Nat) :
    applyEntries (entries t) (fun _ => none) k = lookupT cfg t k := by
  have hnd := hWF.2.2.2.1
  rw [applyEntries_nodup _ hnd]
  rcases hfe : (entries t).find? (fun e => k == e.m_key) with _ | e
  · have hnone : k ∉ (entries t).map HashEntry.m_key := by
      have hfe' := hfe
      rw [List.find?_eq_none] at hfe'
      intro hmem
      rw [List.mem_map] at hmem
      obtain ⟨e, he, hek⟩ := hmem
      exact absurd (by simp [hek]) (hfe' e he)
    rw [hfe, (lookupT_none_iff hL hWF k).mpr hnone]
  · have hek : k = e.m_key := by
      have := List.find?_some hfe
      rwa [beq_iff_eq] at this
    have hmem : e ∈ entries t := List.mem_of_find?_eq_some hfe
    have hmem' : HashEntry.mk k e.m_data ∈ entries t := by
      have : e = HashEntry.mk k e.m_data := by
        cases e
        simp_all
      rwa [← this]
    rw [hfe, (lookupT_some_iff_mem hL hWF k e.m_data).mpr hmem']

lemma WF_freshTable (cfg : Config) (n : Nat) (hn : 1 ≤ n) (c : ℚ) :
    WF cfg { m_size := n, m_count := 0, m_load_factor := c, m_table := List.replicate n [] } := by
  refine ⟨by simp, hn, ?_, ?_, ?_⟩
  · show 0 = (entries _).length
    unfold entries
    rw [flatten_replicate_nil]
    rfl
  · unfold entries
    rw [flatten_replicate_nil]
    exact List.nodup_nil
  · intro i hi e he
    unfold bucketAt at he
    simp only [getD_replicate_nil] at he
    exact absurd he (List.not_mem_nil e)

lemma lookupT_freshTable (cfg : Config) (n : Nat) (c : ℚ) (k : Nat) :
    lookupT cfg { m_size := n, m_count := 0, m_load_factor := c, m_table := List.replicate n [] } k = none := by
  unfold lookupT bucketAt
  simp only [getD_replicate_nil]
  rfl

lemma entries_freshTable (n : Nat) (c : ℚ) :
    entries { m_size := n, m_count := 0, m_load_factor := c, m_table := List.replicate n [] } = [] :=
  flatten_replicate_nil n

/-- Folding an insert operation satisfying `InsertSpec` over a list of entries:
invariants are preserved and the final lookup function is the association-list
update of the starting one; when all keys are fresh and distinct the count
grows by exactly the list length. -/
lemma insertList_spec {cfg : Config}
    {ins : HashTbl → Nat → Nat → Option (Bool × HashTbl)}
    (hins : ∀ t k v b t', WF cfg t → ins t k v = some (b, t') → InsertSpec cfg t k v b t') :
    ∀ (es : List HashEntry) (t t' : HashTbl), WF cfg t → insertList ins es t = some t' →
      WF cfg t' ∧ t'.m_load_factor = t.m_load_factor ∧ t.m_size ≤ t'.m_size ∧
      (t'.m_size = t.m_size ∨ Nat.Prime t'.m_size) ∧
      t'.m_count ≤ t.m_count + es.length ∧
      (∀ k, lookupT cfg t' k = applyEntries es (lookupT cfg t) k) ∧
      ((es.map HashEntry.m_key).Nodup → (∀ e ∈ es, lookupT cfg t e.m_key = none) →
        t'.m_count = t.m_count + es.length)
  | [], t, t', hWF, h => by
    have ht : t' = t := by
      unfold insertList at h
      exact (Option.some_inj.mp h).symm
    subst ht
    exact ⟨hWF, rfl, le_refl _, Or.inl rfl, by simp, fun k => rfl, fun _ _ => by simp⟩
  | e :: es, t, t', hWF, h => by
    unfold insertList at h
    rcases hi : ins t e.m_key e.m_data with _ | r
    · rw [hi] at h
      exact absurd h (by simp)
    · rw [hi] at h
      obtain ⟨b1, t1⟩ := r
      obtain ⟨hWF1, hlf1, hsz1, hdisj1, hb1, hcnt1, hlook1, hnr1⟩ :=
        hins t e.m_key e.m_data b1 t1 hWF hi
      obtain ⟨hWF2, hlf2, hsz2, hdisj2, hcnt2, hlook2, hcond2⟩ :=
        insertList_spec hins es t1 t' hWF1 h
      refine ⟨hWF2, by rw [hlf2, hlf1], le_trans hsz1 hsz2, ?_, ?_, ?_, ?_⟩
      · rcases hdisj2 with h2 | h2
        · rcases hdisj1 with h1 | h1
          · exact Or.inl (by rw [h2, h1])
          · exact Or.inr (by rwa [h2])
        · exact Or.inr h2
      · have : t1.m_count ≤ t.m_count + 1 := by
          rw [hcnt1]
          split <;> omega
        simp only [List.length_cons]
        omega
      · intro k
        rw [hlook2 k]
        show _ = applyEntries es (fun k => if k = e.m_key then some e.m_data else lookupT cfg t k) k
        exact applyEntries_congr es _ _ (fun k' => by rw [hlook1 k']) k
      · intro hnd hfresh
        simp only [List.map_cons, List.nodup_cons] at hnd
        have hfe : lookupT cfg t e.m_key = none := hfresh e (List.mem_cons_self e es)
        have hcnt1' : t1.m_count = t.m_count + 1 := by
          rw [hcnt1, hfe]
          rfl
        have hfresh' : ∀ e' ∈ es, lookupT cfg t1 e'.m_key = none := by
          intro e' he'
          rw [hlook1 e'.m_key, if_neg, hfresh e' (List.mem_cons_of_mem e he')]
          intro heq
          exact hnd.1 (heq ▸ List.mem_map_of_mem HashEntry.m_key he')
        rw [hcond2 hnd.2 hfresh', hcnt1']
        simp only [List.length_cons]
        omega

lemma not_loadFactorExceeded_of_le {t1 : HashTbl} (hsz : 1 ≤ t1.m_size)
    (hle : (t1.m_count : ℚ) ≤ t1.m_load_factor * (t1.m_size : ℚ)) :
    loadFactorExceeded t1 = false := by
  rcases hb : loadFactorExceeded t1
  · rfl
  · exfalso
    have h1 := (loadFactorExceeded_iff t1 hsz).mp hb
    have hszq : (0:ℚ) < (t1.m_size : ℚ) := by
      have : 0 < t1.m_size := hsz
      exact_mod_cast this
    rw [lt_div_iff₀ hszq] at h1
    exact absurd (lt_of_le_of_lt hle h1) (lt_irrefl _)

lemma loadFactorExceeded_lt {t1 : HashTbl} (hsz : 1 ≤ t1.m_size)
    (h : loadFactorExceeded t1 = true) :
    t1.m_load_factor * (t1.m_size : ℚ) < (t1.m_count : ℚ) := by
  have h1 := (loadFactorExceeded_iff t1 hsz).mp h
  have hszq : (0:ℚ) < (t1.m_size : ℚ) := by
    have : 0 < t1.m_size := hsz
    exact_mod_cast this
  rwa [lt_div_iff₀ hszq] at h1

/-- `HashTbl::rehash` on a well-formed table, given that the insert operation
it re-enters satisfies `InsertSpec`: when it completes, the invariants hold,
the load factor setting is untouched, the capacity is at least
`find_next_prime (2 * old)` and prime, the count is unchanged, and every
association is preserved. -/
lemma rehashWith_spec {cfg : Config}
    {ins : HashTbl → Nat → Nat → Option (Bool × HashTbl)}
    (hins : ∀ t k v b t', WF cfg t → ins t k v = some (b, t') → InsertSpec cfg t k v b t')
    {t t' : HashTbl} (hWF : WF cfg t) (hL : LawfulCfg cfg)
    (h : rehashWith ins t = some t') :
    WF cfg t' ∧ t'.m_load_factor = t.m_load_factor ∧
    find_next_prime (2 * t.m_size) ≤ t'.m_size ∧ Nat.Prime t'.m_size ∧
    t'.m_count = t.m_count ∧ (∀ k, lookupT cfg t' k = lookupT cfg t k) := by
  obtain ⟨hlen, hsz, hcnt, hnd, hbc⟩ := hWF
  unfold rehashWith at h
  have hfnp1 : 1 ≤ find_next_prime (2 * t.m_size) := find_next_prime_pos _
  have hfnpp : Nat.Prime (find_next_prime (2 * t.m_size)) :=
    find_next_prime_prime (by omega)
  have hWF0 : WF cfg { m_size := find_next_prime (2 * t.m_size), m_count := 0, m_load_factor := t.m_load_factor, m_table := List.replicate (find_next_prime (2 * t.m_size)) [] } :=
    WF_freshTable cfg _ hfnp1 _
  have hes : t.m_table.flatten = entries t := rfl
  rw [hes] at h
  obtain ⟨hWF', hlf', hszle', hdisj', hcnt', hlook', hcond'⟩ :=
    insertList_spec hins (entries t) _ t' hWF0 h
  have hfresh : ∀ e ∈ entries t, lookupT cfg { m_size := find_next_prime (2 * t.m_size), m_count := 0, m_load_factor := t.m_load_factor, m_table := List.replicate (find_next_prime (2 * t.m_size)) [] } e.m_key = none :=
    fun e _ => lookupT_freshTable cfg _ _ _
  have hcount : t'.m_count = t.m_count := by
    rw [hcond' hnd hfresh, hcnt]
    simp
  refine ⟨hWF', hlf', hszle', ?_, hcount, ?_⟩
  · rcases hdisj' with h' | h'
    · rw [h']
      exact hfnpp
    · exact h'
  · intro k
    rw [hlook' k]
    have hcongr : applyEntries (entries t) (lookupT cfg { m_size := find_next_prime (2 * t.m_size), m_count := 0, m_load_factor := t.m_load_factor, m_table := List.replicate (find_next_prime (2 * t.m_size)) [] }) k = applyEntries (entries t) (fun _ => none) k :=
      applyEntries_congr _ _ _ (fun k' => lookupT_freshTable cfg _ _ k') k
    rw [hcongr]
    exact applyEntries_entries hL ⟨hlen, hsz, hcnt, hnd, hbc⟩ k

/-- One unfolding step of `insert` at positive recursion budget, with the two
intermediate tables named. -/
lemma insertF_succ (cfg : Config) (fuel : Nat) (t : HashTbl) (key data : Nat) :
    insertF cfg (fuel + 1) t key data =
      if (bucketAt t (cfg.hash key % t.m_size)).isEmpty then
        if loadFactorExceeded (insertAbsentTbl cfg t key data) then
          (rehashWith (insertF cfg fuel) (insertAbsentTbl cfg t key data)).map (fun t2 => (true, t2))
        else some (true, insertAbsentTbl cfg t key data)
      else
        match (bucketAt t (cfg.hash key % t.m_size)).find? (keyPred cfg key) with
        | none =>
          if loadFactorExceeded (insertAbsentTbl cfg t key data) then
            (rehashWith (insertF cfg fuel) (insertAbsentTbl cfg t key data)).map (fun t2 => (true, t2))
          else some (true, insertAbsentTbl cfg t key data)
        | some _ =>
          if loadFactorExceeded (insertPresentTbl cfg t key data) then
            (rehashWith (insertF cfg fuel) (insertPresentTbl cfg t key data)).map (fun t2 => (false, t2))
          else some (false, insertPresentTbl cfg t key data) := rfl

/-- The central correctness lemma for `HashTbl::insert` (hashtbl.inl lines
101-130) on well-formed tables with a lawful equality configuration, covering
every nesting of the `insert → rehash → insert` recursion. -/
lemma insertF_spec {cfg : Config} (hL : LawfulCfg cfg) :
    ∀ fuel t k v b t', WF cfg t → insertF cfg fuel t k v = some (b, t') →
      InsertSpec cfg t k v b t' := by
  intro fuel
  induction fuel with
  | zero =>
    intro t k v b t' _ h
    rw [show insertF cfg 0 t k v = none from rfl] at h
    exact absurd h (by simp)
  | succ fuel ih =>
    intro t k v b t' hWF h
    rw [insertF_succ] at h
    have hsz := hWF.2.1
    have habsCase : ∀ (habs : lookupT cfg t k = none),
        (if loadFactorExceeded (insertAbsentTbl cfg t k v) then
          (rehashWith (insertF cfg fuel) (insertAbsentTbl cfg t k v)).map (fun t2 => (true, t2))
        else some (true, insertAbsentTbl cfg t k v)) = some (b, t') →
        InsertSpec cfg t k v b t' := by
      intro habs h
      obtain ⟨hWF1, hsz1, hlf1, hcnt1, hlook1⟩ :=
        insert_mutation_absent hL hWF k v habs (rfl : insertAbsentTbl cfg t k v = _)
      by_cases htrig : loadFactorExceeded (insertAbsentTbl cfg t k v) = true
      · rw [if_pos htrig] at h
        rcases hr : rehashWith (insertF cfg fuel) (insertAbsentTbl cfg t k v) with _ | t2
        · rw [hr] at h
          exact absurd h (by simp)
        · rw [hr] at h
          have h' : (true, t2) = (b, t') := by simpa using h
          injection h' with hb ht'
          subst hb
          subst ht'
          obtain ⟨hWF2, hlf2, hsz2, hprime2, hcnt2, hlook2⟩ :=
            rehashWith_spec ih hWF1 hL hr
          have hfnp := find_next_prime_ge (2 * (insertAbsentTbl cfg t k v).m_size)
          refine ⟨hWF2, by rw [hlf2, hlf1], by omega, Or.inr hprime2, ?_, ?_, ?_, ?_⟩
          · rw [habs]
            rfl
          · rw [hcnt2, hcnt1, habs]
            rfl
          · intro k'
            rw [hlook2 k', hlook1 k']
          · intro hle
            exfalso
            have hlt := loadFactorExceeded_lt (by omega) htrig
            rw [hsz1, hlf1, hcnt1] at hlt
            push_cast at hlt
            linarith
      · rw [Bool.not_eq_true] at htrig
        rw [htrig] at h
        simp only [Bool.false_eq_true, if_false] at h
        have h' : (true, insertAbsentTbl cfg t k v) = (b, t') := by simpa using h
        injection h' with hb ht'
        subst hb
        subst ht'
        refine ⟨hWF1, hlf1, by omega, Or.inl hsz1, ?_, ?_, hlook1, fun _ => hsz1⟩
        · rw [habs]
          rfl
        · rw [hcnt1, habs]
          rfl
    by_cases hbe : (bucketAt t (cfg.hash k % t.m_size)).isEmpty = true
    · rw [if_pos hbe] at h
      have hbnil : bucketAt t (cfg.hash k % t.m_size) = [] := List.isEmpty_iff.mp hbe
      have habs : lookupT cfg t k = none := by
        unfold lookupT
        rw [hbnil]
        rfl
      exact habsCase habs h
    · rw [if_neg hbe] at h
      rcases hf : (bucketAt t (cfg.hash k % t.m_size)).find? (keyPred cfg k) with _ | e0
      · rw [hf] at h
        have habs : lookupT cfg t k = none := by
          unfold lookupT
          rw [hf]
          rfl
        exact habsCase habs h
      · rw [hf] at h
        replace h : (if loadFactorExceeded (insertPresentTbl cfg t k v) then
            (rehashWith (insertF cfg fuel) (insertPresentTbl cfg t k v)).map (fun t2 => (false, t2))
          else some (false, insertPresentTbl cfg t k v)) = some (b, t') := h
        have hpres : lookupT cfg t k = some e0.m_data := by
          unfold lookupT
          rw [hf]
          rfl
        obtain ⟨hWF1, hsz1, hlf1, hcnt1, hlook1⟩ :=
          insert_mutation_present hL hWF k v e0.m_data hpres (rfl : insertPresentTbl cfg t k v = _)
        by_cases htrig : loadFactorExceeded (insertPresentTbl cfg t k v) = true
        · rw [if_pos htrig] at h
          rcases hr : rehashWith (insertF cfg fuel) (insertPresentTbl cfg t k v) with _ | t2
          · rw [hr] at h
            exact absurd h (by simp)
          · rw [hr] at h
            have h' : (false, t2) = (b, t') := by simpa using h
            injection h' with hb ht'
            subst hb
            subst ht'
            obtain ⟨hWF2, hlf2, hsz2, hprime2, hcnt2, hlook2⟩ :=
              rehashWith_spec ih hWF1 hL hr
            have hfnp := find_next_prime_ge (2 * (insertPresentTbl cfg t k v).m_size)
            refine ⟨hWF2, by rw [hlf2, hlf1], by omega, Or.inr hprime2, ?_, ?_, ?_, ?_⟩
            · rw [hpres]
              rfl
            · rw [hcnt2, hcnt1, hpres]
              rfl
            · intro k'
              rw [hlook2 k', hlook1 k']
            · intro hle
              exfalso
              have hlt := loadFactorExceeded_lt (by omega) htrig
              rw [hsz1, hlf1, hcnt1] at hlt
              have hc1 : (t.m_count : ℚ) ≤ (t.m_count : ℚ) + 1 := by linarith
              linarith
        · rw [Bool.not_eq_true] at htrig
          rw [htrig] at h
          simp only [Bool.false_eq_true, if_false] at h
          have h' : (false, insertPresentTbl cfg t k v) = (b, t') := by simpa using h
          injection h' with hb ht'
          subst hb
          subst ht'
          refine ⟨hWF1, hlf1, by omega, Or.inl hsz1, ?_, ?_, hlook1, fun _ => hsz1⟩
          · rw [hpres]
            rfl
          · rw [hcnt1, hpres]
            rfl

/-- Folding `insert` over entries never rehashes (the capacity is unchanged)
as long as the final count stays within the load budget. -/
lemma insertList_size_const {cfg : Config} (hL : LawfulCfg cfg) (fuel : Nat) :
    ∀ (es : List HashEntry) (t t' : HashTbl), WF cfg t →
      ((t.m_count : ℚ) + es.length ≤ t.m_load_factor * (t.m_size : ℚ)) →
      insertList (insertF cfg fuel) es t = some t' → t'.m_size = t.m_size
  | [], t, t', _, _, h => by
    have ht : t' = t := by
      unfold insertList at h
      exact (Option.some_inj.mp h).symm
    rw [ht]
  | e :: es, t, t', hWF, hb, h => by
    simp only [List.length_cons] at hb
    unfold insertList at h
    rcases hi : insertF cfg fuel t e.m_key e.m_data with _ | r
    · rw [hi] at h
      exact absurd h (by simp)
    · rw [hi] at h
      obtain ⟨b1, t1⟩ := r
      obtain ⟨hWF1, hlf1, hsz1, _, _, hcnt1, _, hnr1⟩ :=
        insertF_spec hL fuel t e.m_key e.m_data b1 t1 hWF hi
      have hlen0 : (0:ℚ) ≤ (es.length : ℚ) := by positivity
      have hb' : (t.m_count : ℚ) + 1 ≤ t.m_load_factor * (t.m_size : ℚ) := by
        push_cast at hb
        linarith
      have hsz1' : t1.m_size = t.m_size := hnr1 hb'
      have hc1 : (t1.m_count : ℚ) ≤ (t.m_count : ℚ) + 1 := by
        rw [hcnt1]
        split <;> push_cast <;> linarith
      have hb2 : (t1.m_count : ℚ) + es.length ≤ t1.m_load_factor * (t1.m_size : ℚ) := by
        rw [hlf1, hsz1']
        push_cast at hb ⊢
        linarith
      rw [insertList_size_const hL fuel es t1 t' hWF1 hb2 h, hsz1']

/-- A positive count over a non-positive load-factor setting always trips the
load-factor check. -/
lemma loadFactorExceeded_of_nonpos {t1 : HashTbl} (hsz : 1 ≤ t1.m_size)
    (hc : 1 ≤ t1.m_count) (hmlf : t1.m_load_factor ≤ 0) :
    loadFactorExceeded t1 = true := by
  rw [loadFactorExceeded_iff _ hsz]
  have hszq : (0:ℚ) < (t1.m_size : ℚ) := by exact_mod_cast hsz
  have hcq : (0:ℚ) < (t1.m_count : ℚ) := by exact_mod_cast hc
  exact lt_of_le_of_lt hmlf (div_pos hcq hszq)

/-- With a non-positive load factor, `insert` on a well-formed table never
returns: every mutation leaves at least one entry, the check then always
demands a rehash, and the first re-insert of the rehash recurses into the same
situation — the C++ recursion `insert → rehash → insert → ...` never
terminates. -/
lemma insertF_diverges_of_nonpos {cfg : Config} (hL : LawfulCfg cfg) :
    ∀ fuel t k v, WF cfg t → t.m_load_factor ≤ 0 → insertF cfg fuel t k v = none := by
  intro fuel
  induction fuel with
  | zero =>
    intro t k v _ _
    rfl
  | succ fuel ih =>
    intro t k v hWF hmlf
    have hsz := hWF.2.1
    rw [insertF_succ]
    have hdead : ∀ (T1 : HashTbl) (bb : Bool), WF cfg T1 →
        T1.m_load_factor = t.m_load_factor → T1.m_size = t.m_size → 1 ≤ T1.m_count →
        (if loadFactorExceeded T1 then
            (rehashWith (insertF cfg fuel) T1).map (fun t2 => (bb, t2))
          else some (bb, T1)) = none := by
      intro T1 bb hWF1 hlf1 hsz1 hcnt1
      have htrig : loadFactorExceeded T1 = true :=
        loadFactorExceeded_of_nonpos (by omega) hcnt1 (by rw [hlf1]; exact hmlf)
      rw [if_pos htrig]
      have hne : entries T1 ≠ [] := by
        intro hnil
        have := hWF1.2.2.1
        rw [hnil] at this
        simp at this
        omega
      rcases hE : entries T1 with _ | ⟨e1, es1⟩
      · exact absurd hE hne
      · have hrn : rehashWith (insertF cfg fuel) T1 = none := by
          unfold rehashWith
          have hflat : T1.m_table.flatten = e1 :: es1 := hE
          rw [hflat]
          unfold insertList
          rw [ih _ e1.m_key e1.m_data (WF_freshTable cfg _ (find_next_prime_pos _) _) (by rw [hlf1]; exact hmlf)]
        rw [hrn]
        rfl
    by_cases hbe : (bucketAt t (cfg.hash k % t.m_size)).isEmpty = true
    · rw [if_pos hbe]
      have hbnil : bucketAt t (cfg.hash k % t.m_size) = [] := List.isEmpty_iff.mp hbe
      have habs : lookupT cfg t k = none := by
        unfold lookupT
        rw [hbnil]
        rfl
      obtain ⟨hWF1, hsz1, hlf1, hcnt1, _⟩ :=
        insert_mutation_absent hL hWF k v habs (rfl : insertAbsentTbl cfg t k v = _)
      exact hdead _ true hWF1 hlf1 hsz1 (by omega)
    · rw [if_neg hbe]
      rcases hf : (bucketAt t (cfg.hash k % t.m_size)).find? (keyPred cfg k) with _ | e0
      · have habs : lookupT cfg t k = none := by
          unfold lookupT
          rw [hf]
          rfl
        obtain ⟨hWF1, hsz1, hlf1, hcnt1, _⟩ :=
          insert_mutation_absent hL hWF k v habs (rfl : insertAbsentTbl cfg t k v = _)
        exact hdead _ true hWF1 hlf1 hsz1 (by omega)
      · have hpres : lookupT cfg t k = some e0.m_data := by
          unfold lookupT
          rw [hf]
          rfl
        obtain ⟨hWF1, hsz1, hlf1, hcnt1, _⟩ :=
          insert_mutation_present hL hWF k v e0.m_data hpres (rfl : insertPresentTbl cfg t k v = _)
        have hcpos : 1 ≤ t.m_count := by
          have hmem : e0 ∈ bucketAt t (cfg.hash k % t.m_size) := List.mem_of_find?_eq_some hf
          have hment : e0 ∈ entries t :=
            mem_entries_of_mem_bucket hWF.1 (hash_mod_lt cfg t hsz k) hmem
          have hlenpos : 0 < (entries t).length := List.length_pos.mpr (by
            intro hnil
            rw [hnil] at hment
            exact absurd hment (List.not_mem_nil e0))
          have := hWF.2.2.1
          omega
        exact hdead _ false hWF1 hlf1 hsz1 (by omega)

/-- Termination of `insert` for positive load factors: a recursion budget of
`f + 1` suffices as soon as capacity doubled `f` times absorbs the new count
within the load budget (such an `f` always exists since capacities at least
double with every nested rehash). -/
lemma insertF_terminates_aux {cfg : Config} (hL : LawfulCfg cfg) :
    ∀ (f : Nat) (t : HashTbl) (k v : Nat), WF cfg t → 0 < t.m_load_factor →
      ((t.m_count : ℚ) + 1 ≤ t.m_load_factor * (2 ^ f * (t.m_size : ℚ))) →
      ∃ r, insertF cfg (f + 1) t k v = some r := by
  intro f
  induction f with
  | zero =>
    intro t k v hWF hpos hbound
    have hsz := hWF.2.1
    simp only [pow_zero, one_mul] at hbound
    have hA : loadFactorExceeded (insertAbsentTbl cfg t k v) = false := by
      apply not_loadFactorExceeded_of_le (show 1 ≤ (insertAbsentTbl cfg t k v).m_size from hsz)
      show ((t.m_count + 1 : ℕ) : ℚ) ≤ t.m_load_factor * ((t.m_size : ℕ) : ℚ)
      push_cast
      linarith
    have hP : loadFactorExceeded (insertPresentTbl cfg t k v) = false := by
      apply not_loadFactorExceeded_of_le (show 1 ≤ (insertPresentTbl cfg t k v).m_size from hsz)
      show ((t.m_count : ℕ) : ℚ) ≤ t.m_load_factor * ((t.m_size : ℕ) : ℚ)
      linarith
    rw [insertF_succ]
    by_cases hbe : (bucketAt t (cfg.hash k % t.m_size)).isEmpty = true
    · rw [if_pos hbe, hA]
      exact ⟨(true, insertAbsentTbl cfg t k v), by simp⟩
    · rw [if_neg hbe]
      rcases hf : (bucketAt t (cfg.hash k % t.m_size)).find? (keyPred cfg k) with _ | e0
      · rw [hA]
        exact ⟨(true, insertAbsentTbl cfg t k v), by simp⟩
      · rw [hP]
        exact ⟨(false, insertPresentTbl cfg t k v), by simp⟩
  | succ f ihf =>
    intro t k v hWF hpos hbound
    have hsz := hWF.2.1
    have hRA : ∀ (es : List HashEntry) (t2 : HashTbl), WF cfg t2 → 0 < t2.m_load_factor →
        ((t2.m_count : ℚ) + es.length ≤ t2.m_load_factor * (2 ^ f * (t2.m_size : ℚ))) →
        ∃ t3, insertList (insertF cfg (f + 1)) es t2 = some t3 := by
      intro es
      induction es with
      | nil => exact fun t2 _ _ _ => ⟨t2, rfl⟩
      | cons e es ihes =>
        intro t2 hWF2 hpos2 hb2
        simp only [List.length_cons] at hb2
        have hlen0 : (0:ℚ) ≤ (es.length : ℚ) := by positivity
        have hb1 : (t2.m_count : ℚ) + 1 ≤ t2.m_load_factor * (2 ^ f * (t2.m_size : ℚ)) := by
          push_cast at hb2
          linarith
        obtain ⟨⟨b1, t3⟩, h1⟩ := ihf t2 e.m_key e.m_data hWF2 hpos2 hb1
        obtain ⟨hWF3, hlf3, hsz3, _, _, hcnt3, _, _⟩ :=
          insertF_spec hL (f + 1) t2 e.m_key e.m_data b1 t3 hWF2 h1
        have hc3 : (t3.m_count : ℚ) ≤ (t2.m_count : ℚ) + 1 := by
          rw [hcnt3]
          split <;> push_cast <;> linarith
        have hszq : ((t2.m_size : ℕ) : ℚ) ≤ ((t3.m_size : ℕ) : ℚ) := by exact_mod_cast hsz3
        have hb3 : (t3.m_count : ℚ) + es.length ≤ t3.m_load_factor * (2 ^ f * (t3.m_size : ℚ)) := by
          rw [hlf3]
          have hmono : t2.m_load_factor * (2 ^ f * (t2.m_size : ℚ)) ≤
              t2.m_load_factor * (2 ^ f * (t3.m_size : ℚ)) := by
            have h2f : (0:ℚ) < 2 ^ f := by positivity
            have := mul_le_mul_of_nonneg_left hszq (le_of_lt h2f)
            exact mul_le_mul_of_nonneg_left this (le_of_lt hpos2)
          push_cast at hb2 ⊢
          linarith
        obtain ⟨t4, h4⟩ := ihes t3 hWF3 (by rw [hlf3]; exact hpos2) hb3
        refine ⟨t4, ?_⟩
        unfold insertList
        rw [h1]
        exact h4
    have hDone : ∀ (T1 : HashTbl) (bb : Bool), WF cfg T1 →
        T1.m_load_factor = t.m_load_factor → T1.m_size = t.m_size →
        (T1.m_count : ℚ) ≤ (t.m_count : ℚ) + 1 →
        ∃ r, (if loadFactorExceeded T1 then
            (rehashWith (insertF cfg (f + 1)) T1).map (fun t2 => (bb, t2))
          else some (bb, T1)) = some r := by
      intro T1 bb hWF1 hlf1 hsz1 hcnt1
      by_cases htrig : loadFactorExceeded T1 = true
      · rw [if_pos htrig]
        unfold rehashWith
        have hfnp1 : 1 ≤ find_next_prime (2 * T1.m_size) := find_next_prime_pos _
        have hWF0 : WF cfg { m_size := find_next_prime (2 * T1.m_size), m_count := 0, m_load_factor := T1.m_load_factor, m_table := List.replicate (find_next_prime (2 * T1.m_size)) [] } :=
          WF_freshTable cfg _ hfnp1 _
        have hlenE : ((entries T1).length : ℚ) = (T1.m_count : ℚ) := by
          have h := hWF1.2.2.1
          exact_mod_cast congrArg Nat.cast h.symm
        have h2s : ((2 * T1.m_size : ℕ) : ℚ) ≤ ((find_next_prime (2 * T1.m_size) : ℕ) : ℚ) := by
          exact_mod_cast find_next_prime_ge (2 * T1.m_size)
        have hbig : ((0 : ℕ) : ℚ) + (entries T1).length ≤
            T1.m_load_factor * (2 ^ f * ((find_next_prime (2 * T1.m_size) : ℕ) : ℚ)) := by
          rw [hlenE, hlf1]
          have hstep1 : (T1.m_count : ℚ) ≤ (t.m_count : ℚ) + 1 := hcnt1
          have hstep2 : (t.m_count : ℚ) + 1 ≤ t.m_load_factor * (2 ^ (f + 1) * (t.m_size : ℚ)) := hbound
          have hstep3 : t.m_load_factor * (2 ^ (f + 1) * (t.m_size : ℚ)) =
              t.m_load_factor * (2 ^ f * ((2 * T1.m_size : ℕ) : ℚ)) := by
            rw [hsz1]
            push_cast
            ring
          have hstep4 : t.m_load_factor * (2 ^ f * ((2 * T1.m_size : ℕ) : ℚ)) ≤
              t.m_load_factor * (2 ^ f * ((find_next_prime (2 * T1.m_size) : ℕ) : ℚ)) := by
            have h2f : (0:ℚ) ≤ 2 ^ f := by positivity
            have := mul_le_mul_of_nonneg_left h2s h2f
            exact mul_le_mul_of_nonneg_left this (le_of_lt hpos)
          push_cast
          linarith
        obtain ⟨t3, h3⟩ := hRA (entries T1) _ hWF0 (by show 0 < T1.m_load_factor; rw [hlf1]; exact hpos) hbig
        refine ⟨(bb, t3), ?_⟩
        have hflat : T1.m_table.flatten = entries T1 := rfl
        rw [hflat, h3]
        rfl
      · rw [Bool.not_eq_true] at htrig
        rw [htrig]
        exact ⟨(bb, T1), by simp⟩
    rw [insertF_succ]
    by_cases hbe : (bucketAt t (cfg.hash k % t.m_size)).isEmpty = true
    · rw [if_pos hbe]
      have habs : lookupT cfg t k = none := by
        unfold lookupT
        rw [List.isEmpty_iff.mp hbe]
        rfl
      obtain ⟨hWF1, hsz1, hlf1, hcnt1, _⟩ :=
        insert_mutation_absent hL hWF k v habs (rfl : insertAbsentTbl cfg t k v = _)
      exact hDone _ true hWF1 hlf1 hsz1 (by rw [hcnt1]; push_cast; linarith)
    · rw [if_neg hbe]
      rcases hf : (bucketAt t (cfg.hash k % t.m_size)).find? (keyPred cfg k) with _ | e0
      · have habs : lookupT cfg t k = none := by
          unfold lookupT
          rw [hf]
          rfl
        obtain ⟨hWF1, hsz1, hlf1, hcnt1, _⟩ :=
          insert_mutation_absent hL hWF k v habs (rfl : insertAbsentTbl cfg t k v = _)
        exact hDone _ true hWF1 hlf1 hsz1 (by rw [hcnt1]; push_cast; linarith)
      · have hpres : lookupT cfg t k = some e0.m_data := by
          unfold lookupT
          rw [hf]
          rfl
        obtain ⟨hWF1, hsz1, hlf1, hcnt1, _⟩ :=
          insert_mutation_present hL hWF k v e0.m_data hpres (rfl : insertPresentTbl cfg t k v = _)
        exact hDone _ false hWF1 hlf1 hsz1 (by rw [hcnt1]; linarith)

/-- For every positive load factor, `insert` terminates from every well-formed
state: some recursion budget yields a result. -/
lemma insertF_terminates {cfg : Config} (hL : LawfulCfg cfg) {t : HashTbl}
    (hWF : WF cfg t) (hpos : 0 < t.m_load_factor) (k v : Nat) :
    ∃ fuel b t', insertF cfg fuel t k v = some (b, t') := by
  have hsz := hWF.2.1
  obtain ⟨f, hf⟩ := pow_unbounded_of_one_lt (((t.m_count : ℚ) + 1) / t.m_load_factor) (by norm_num : (1:ℚ) < 2)
  have hszq : (1:ℚ) ≤ (t.m_size : ℚ) := by exact_mod_cast hsz
  have hbound : (t.m_count : ℚ) + 1 ≤ t.m_load_factor * (2 ^ f * (t.m_size : ℚ)) := by
    rw [div_lt_iff₀ hpos] at hf
    have h1 : (t.m_count : ℚ) + 1 ≤ 2 ^ f * t.m_load_factor := le_of_lt hf
    have h2 : 2 ^ f * t.m_load_factor * 1 ≤ 2 ^ f * t.m_load_factor * (t.m_size : ℚ) := by
      have : (0:ℚ) ≤ 2 ^ f * t.m_load_factor := by positivity
      exact mul_le_mul_of_nonneg_left hszq this
    calc (t.m_count : ℚ) + 1 ≤ 2 ^ f * t.m_load_factor := h1
      _ = 2 ^ f * t.m_load_factor * 1 := by ring
      _ ≤ 2 ^ f * t.m_load_factor * (t.m_size : ℚ) := h2
      _ = t.m_load_factor * (2 ^ f * (t.m_size : ℚ)) := by ring
  obtain ⟨⟨b, t'⟩, hr⟩ := insertF_terminates_aux hL f t k v hWF hpos hbound
  exact ⟨f + 1, b, t', hr⟩

lemma nat_beq_comm (a b : Nat) : (a == b) = (b == a) := by
  by_cases h : a = b
  · subst h
    rfl
  · have h1 : (a == b) = false := beq_eq_false_iff_ne.mpr h
    have h2 : (b == a) = false := beq_eq_false_iff_ne.mpr (fun hh => h hh.symm)
    rw [h1, h2]

lemma filter_not_length (p : HashEntry → Bool) :
    ∀ l : List HashEntry, (l.filter (fun e => ! p e)).length + l.countP p = l.length
  | [] => rfl
  | e :: es => by
    rw [List.countP_cons]
    rcases h : p e
    · rw [List.filter_cons_of_pos (by rw [h]; rfl)]
      have := filter_not_length p es
      simp only [List.length_cons, h, Bool.false_eq_true, if_false]
      omega
    · rw [List.filter_cons_of_neg (by rw [h]; simp)]
      have hrec := filter_not_length p es
      simp
      omega

lemma find?_filter_not (p p' : HashEntry → Bool)
    (hcompat : ∀ e, p e = true → p' e = false) :
    ∀ l : List HashEntry, (l.filter (fun e => ! p e)).find? p' = l.find? p'
  | [] => rfl
  | e :: es => by
    rcases h : p e
    · rw [List.filter_cons_of_pos (by rw [h]; rfl)]
      by_cases h' : p' e = true
      · rw [List.find?_cons_of_pos _ h', List.find?_cons_of_pos _ h']
      · rw [List.find?_cons_of_neg _ h', List.find?_cons_of_neg _ h']
        exact find?_filter_not p p' hcompat es
    · rw [List.filter_cons_of_neg (by rw [h]; simp)]
      rw [List.find?_cons_of_neg _ (by rw [hcompat e h]; simp)]
      exact find?_filter_not p p' hcompat es

/-- The keys of any single bucket of a well-formed table are distinct. -/
lemma bucket_keys_nodup {cfg : Config} {t : HashTbl} (hWF : WF cfg t) (i : Nat)
    (hi : i < t.m_table.length) :
    ((bucketAt t i).map HashEntry.m_key).Nodup := by
  obtain ⟨hlen, hsz, hcnt, hnd, hbc⟩ := hWF
  have hE0 := flatten_decomp t.m_table i hi
  rw [show t.m_table.flatten = entries t from rfl] at hE0
  rw [hE0] at hnd
  simp only [List.map_append] at hnd
  rw [List.nodup_append] at hnd
  rw [List.nodup_append] at hnd
  exact hnd.1.2.1

/-- `HashTbl::erase` on a well-formed table: the returned flag reports
presence, invariants, capacity and load factor are preserved, the count drops
by one exactly on hits, and the lookup function is cleared at exactly the
erased key. -/
lemma erase_spec {cfg : Config} (hL : LawfulCfg cfg) {t : HashTbl} (hWF : WF cfg t)
    (k : Nat) :
    (erase cfg t k).1 = (lookupT cfg t k).isSome ∧
    WF cfg (erase cfg t k).2 ∧
    (erase cfg t k).2.m_size = t.m_size ∧
    (erase cfg t k).2.m_load_factor = t.m_load_factor ∧
    (erase cfg t k).2.m_count + (if (lookupT cfg t k).isSome then 1 else 0) = t.m_count ∧
    (∀ k', lookupT cfg (erase cfg t k).2 k' = if k' = k then none else lookupT cfg t k') := by
  have hWF0 := hWF
  obtain ⟨hlen, hsz, hcnt, hnd, hbc⟩ := hWF
  have hidx : cfg.hash k % t.m_size < t.m_size := hash_mod_lt cfg t hsz k
  have hidxl : cfg.hash k % t.m_size < t.m_table.length := by omega
  unfold erase
  rcases hf : (bucketAt t (cfg.hash k % t.m_size)).find? (keyPred cfg k) with _ | e0
  · have habs : lookupT cfg t k = none := by
      unfold lookupT
      rw [hf]
      rfl
    simp only [hf, habs]
    refine ⟨by trivial, hWF0, by trivial, by trivial, by simp, ?_⟩
    intro k'
    by_cases hk' : k' = k
    · subst hk'
      rw [if_pos rfl, habs]
    · rw [if_neg hk']
  · have hpres : lookupT cfg t k = some e0.m_data := by
      unfold lookupT
      rw [hf]
      rfl
    have hpe0 : keyPred cfg k e0 = true := List.find?_some hf
    have he0k : e0.m_key = k := by
      rw [keyPred_lawful hL, beq_iff_eq] at hpe0
      exact hpe0.symm
    have he0mem : e0 ∈ bucketAt t (cfg.hash k % t.m_size) := List.mem_of_find?_eq_some hf
    have hndB : ((bucketAt t (cfg.hash k % t.m_size)).map HashEntry.m_key).Nodup :=
      bucket_keys_nodup hWF0 _ hidxl
    have hcountP : (bucketAt t (cfg.hash k % t.m_size)).countP (fun e => e.m_key == k) = 1 := by
      apply countP_key_eq_one hndB
      show HashEntry.mk k e0.m_data ∈ _
      have : e0 = HashEntry.mk k e0.m_data := by
        cases e0
        simp_all
      rwa [this] at he0mem
    have hcountP' : (bucketAt t (cfg.hash k % t.m_size)).countP (keyPred cfg k) = 1 := by
      rw [← hcountP]
      apply List.countP_congr
      intro e _
      rw [keyPred_lawful hL, nat_beq_comm]
    have hlenB : ((bucketAt t (cfg.hash k % t.m_size)).filter (fun e => ! keyPred cfg k e)).length + 1 = (bucketAt t (cfg.hash k % t.m_size)).length := by
      have := filter_not_length (keyPred cfg k) (bucketAt t (cfg.hash k % t.m_size))
      rw [hcountP'] at this
      omega
    have hsub : List.Sublist ((bucketAt t (cfg.hash k % t.m_size)).filter (fun e => ! keyPred cfg k e)) (bucketAt t (cfg.hash k % t.m_size)) :=
      List.filter_sublist _
    have hE1 : entries { t with m_table := t.m_table.set (cfg.hash k % t.m_size) ((bucketAt t (cfg.hash k % t.m_size)).filter (fun e => ! keyPred cfg k e)), m_count := t.m_count - 1 } = (t.m_table.take (cfg.hash k % t.m_size)).flatten ++ (bucketAt t (cfg.hash k % t.m_size)).filter (fun e => ! keyPred cfg k e) ++ (t.m_table.drop (cfg.hash k % t.m_size + 1)).flatten :=
      flatten_set _ _ _ hidxl
    have hE0 : entries t = (t.m_table.take (cfg.hash k % t.m_size)).flatten ++ bucketAt t (cfg.hash k % t.m_size) ++ (t.m_table.drop (cfg.hash k % t.m_size + 1)).flatten :=
      flatten_decomp _ _ hidxl
    have hBpos : 1 ≤ (bucketAt t (cfg.hash k % t.m_size)).length :=
      List.length_pos.mpr (by
        intro hnil
        rw [hnil] at he0mem
        exact absurd he0mem (List.not_mem_nil e0))
    have hcpos : 1 ≤ t.m_count := by
      rw [hcnt, hE0]
      simp only [List.length_append]
      omega
    simp only [hf]
    rw [hpres]
    refine ⟨by trivial, ⟨?_, ?_, ?_, ?_, ?_⟩, by trivial, by trivial, ?_, ?_⟩
    · simp only [List.length_set]
      exact hlen
    · exact hsz
    · show t.m_count - 1 = _
      rw [hE1]
      rw [hE0] at hcnt
      simp only [List.length_append] at hcnt ⊢
      omega
    · rw [hE1]
      rw [hE0] at hnd
      simp only [List.map_append] at hnd ⊢
      have hsubl : List.Sublist ((t.m_table.take (cfg.hash k % t.m_size)).flatten.map HashEntry.m_key ++ ((bucketAt t (cfg.hash k % t.m_size)).filter (fun e => ! keyPred cfg k e)).map HashEntry.m_key ++ (t.m_table.drop (cfg.hash k % t.m_size + 1)).flatten.map HashEntry.m_key) ((t.m_table.take (cfg.hash k % t.m_size)).flatten.map HashEntry.m_key ++ (bucketAt t (cfg.hash k % t.m_size)).map HashEntry.m_key ++ (t.m_table.drop (cfg.hash k % t.m_size + 1)).flatten.map HashEntry.m_key) := by
        apply List.Sublist.append_right
        apply List.Sublist.append_left
        exact List.Sublist.map _ hsub
      exact hsubl.nodup hnd
    · intro i hi e he
      show cfg.hash e.m_key % t.m_size = i
      have hbuck : bucketAt { t with m_table := t.m_table.set (cfg.hash k % t.m_size) ((bucketAt t (cfg.hash k % t.m_size)).filter (fun e => ! keyPred cfg k e)), m_count := t.m_count - 1 } i = if i = cfg.hash k % t.m_size then (bucketAt t (cfg.hash k % t.m_size)).filter (fun e => ! keyPred cfg k e) else bucketAt t i := by
        unfold bucketAt
        split
        case isTrue h => rw [h, getD_set_self _ _ _ hidxl]
        case isFalse h => rw [getD_set_ne _ _ (fun hh => h hh.symm)]
      rw [hbuck] at he
      split at he
      case isTrue h => exact h ▸ hbc _ hidx e (hsub.mem he)
      case isFalse h => exact hbc i hi e he
    · show t.m_count - 1 + 1 = t.m_count
      omega
    · intro k'
      have hbucks : ∀ j, j ≠ cfg.hash k % t.m_size → bucketAt { t with m_table := t.m_table.set (cfg.hash k % t.m_size) ((bucketAt t (cfg.hash k % t.m_size)).filter (fun e => ! keyPred cfg k e)), m_count := t.m_count - 1 } j = bucketAt t j := by
        intro j hj
        unfold bucketAt
        rw [getD_set_ne _ _ (fun hh => hj hh.symm)]
      have hbucke : bucketAt { t with m_table := t.m_table.set (cfg.hash k % t.m_size) ((bucketAt t (cfg.hash k % t.m_size)).filter (fun e => ! keyPred cfg k e)), m_count := t.m_count - 1 } (cfg.hash k % t.m_size) = (bucketAt t (cfg.hash k % t.m_size)).filter (fun e => ! keyPred cfg k e) := by
        unfold bucketAt
        rw [getD_set_self _ _ _ hidxl]
      by_cases hk' : k' = k
      · rw [if_pos hk', hk']
        unfold lookupT
        show (((bucketAt _ (cfg.hash k % t.m_size)).find? (keyPred cfg k)).map HashEntry.m_data) = none
        rw [hbucke]
        rw [List.find?_eq_none.mpr]
        · rfl
        · intro x hx
          have := List.of_mem_filter hx
          simp only [Bool.not_eq_eq_eq_not, Bool.not_true] at this
          rw [this]
          exact fun hh => nomatch hh
      · rw [if_neg hk']
        unfold lookupT
        show (((bucketAt _ (cfg.hash k' % t.m_size)).find? (keyPred cfg k')).map HashEntry.m_data) = _
        by_cases hii : cfg.hash k' % t.m_size = cfg.hash k % t.m_size
        · rw [hii, hbucke]
          have hcompat : ∀ e, keyPred cfg k e = true → keyPred cfg k' e = false := by
            intro e h
            rw [keyPred_lawful hL, beq_iff_eq] at h
            rw [keyPred_lawful hL]
            simp [← h, hk']
          rw [find?_filter_not _ _ hcompat]
        · rw [hbucks _ hii]

lemma retrieve_spec {cfg : Config} (t : HashTbl) (k out : Nat) :
    retrieve cfg t k out =
      match lookupT cfg t k with
      | some v => (true, v)
      | none => (false, out) := by
  unfold retrieve lookupT
  rcases hf : (bucketAt t (cfg.hash k % t.m_size)).find? (keyPred cfg k) with _ | e
  · rfl
  · rfl

lemma atT_eq_lookupT (cfg : Config) (t : HashTbl) (k : Nat) :
    atT cfg t k = lookupT cfg t k := by
  unfold atT lookupT
  rcases hf : (bucketAt t (cfg.hash k % t.m_size)).find? (keyPred cfg k) with _ | e
  · rfl
  · rfl

lemma countK_spec {cfg : Config} (hL : LawfulCfg cfg) {t : HashTbl} (hWF : WF cfg t)
    (k : Nat) :
    countK cfg t k = if k ∈ (entries t).map HashEntry.m_key then (bucketAt t (cfg.hash k % t.m_size)).length else 0 := by
  rcases hf : (bucketAt t (cfg.hash k % t.m_size)).find? (keyPred cfg k) with _ | e
  · have habs : lookupT cfg t k = none := by
      unfold lookupT
      rw [hf]
      rfl
    unfold countK
    simp only [hf]
    rw [if_neg ((lookupT_none_iff hL hWF k).mp habs)]
  · have hpres : lookupT cfg t k = some e.m_data := by
      unfold lookupT
      rw [hf]
      rfl
    unfold countK
    simp only [hf]
    rw [if_pos ((lookupT_isSome_iff hL hWF k).mp (by rw [hpres]; rfl))]

lemma retrieve_writeThrough {cfg : Config} (hL : LawfulCfg cfg) {t : HashTbl}
    (hWF : WF cfg t) {k d0 : Nat} (hk : lookupT cfg t k = some d0) (w out : Nat) :
    retrieve cfg (writeThrough cfg t k w) k out = (true, w) := by
  obtain ⟨hlen, hsz, hcnt, hnd, hbc⟩ := hWF
  have hidxl : cfg.hash k % t.m_size < t.m_table.length := by
    have := hash_mod_lt cfg t hsz k
    omega
  obtain ⟨e0, hf⟩ : ∃ e0, (bucketAt t (cfg.hash k % t.m_size)).find? (keyPred cfg k) = some e0 := by
    unfold lookupT at hk
    rcases hf : (bucketAt t (cfg.hash k % t.m_size)).find? (keyPred cfg k) with _ | e0
    · rw [hf] at hk
      exact absurd hk (by simp)
    · exact ⟨e0, rfl⟩
  have he0k : k = e0.m_key := by
    have := List.find?_some hf
    rwa [keyPred_lawful hL, beq_iff_eq] at this
  unfold writeThrough
  simp only [hf]
  unfold retrieve
  have hbucke : bucketAt { t with m_table := t.m_table.set (cfg.hash k % t.m_size) (replaceFirst (keyPred cfg k) { m_key := e0.m_key, m_data := w } (bucketAt t (cfg.hash k % t.m_size))) } (cfg.hash k % t.m_size) = replaceFirst (keyPred cfg k) { m_key := e0.m_key, m_data := w } (bucketAt t (cfg.hash k % t.m_size)) := by
    unfold bucketAt
    rw [getD_set_self _ _ _ hidxl]
  show (match (bucketAt _ (cfg.hash k % t.m_size)).find? (keyPred cfg k) with
    | some e => (true, e.m_data)
    | none => (false, out)) = (true, w)
  rw [hbucke, find?_replaceFirst_self _ _ (by rw [keyPred_lawful hL, ← he0k]; simp) _ (by rw [hf]; rfl)]

/-- `HashTbl::operator[]` under a LAWFUL equality configuration (where the
`==` scan it uses agrees with the `KeyEqual` scan `insert` uses): on a hit it
returns the stored value and leaves the table untouched; on a miss it inserts
the default value 0 through the normal insert path (load-factor check and
possible rehash included) and returns the freshly stored 0. -/
lemma index_accessF_spec {cfg : Config} (hL : LawfulCfg cfg) :
    ∀ (fuel : Nat) {t : HashTbl} (k d : Nat) (t' : HashTbl), WF cfg t →
      index_accessF cfg fuel t k = some (d, t') →
      ((∃ v0, lookupT cfg t k = some v0 ∧ d = v0 ∧ t' = t) ∨
       (lookupT cfg t k = none ∧ d = 0 ∧ WF cfg t' ∧ t'.m_count = t.m_count + 1 ∧
        t'.m_load_factor = t.m_load_factor ∧
        (∀ k', lookupT cfg t' k' = if k' = k then some 0 else lookupT cfg t k'))) := by
  intro fuel
  match fuel with
  | 0 =>
    intro t k d t' _ h
    exact absurd h (by simp [index_accessF])
  | fuel + 1 =>
    intro t k d t' hWF h
    have hpredeq : (fun e => k == e.m_key) = keyPred cfg k :=
      funext fun e => (keyPred_lawful hL k e).symm
    rw [show index_accessF cfg (fuel + 1) t k =
        (match (bucketAt t (cfg.hash k % t.m_size)).find? (fun e => k == e.m_key) with
        | some e => some (e.m_data, t)
        | none =>
          match insertF cfg (fuel + 1) t k 0 with
          | none => none
          | some (_, t1) => index_accessF cfg fuel t1 k) from rfl, hpredeq] at h
    rcases hf : (bucketAt t (cfg.hash k % t.m_size)).find? (keyPred cfg k) with _ | e
    · rw [hf] at h
      have habs : lookupT cfg t k = none := by
        unfold lookupT
        rw [hf]
        rfl
      rcases hi : insertF cfg (fuel + 1) t k 0 with _ | r
      · rw [hi] at h
        exact absurd h (by simp)
      · rw [hi] at h
        obtain ⟨b1, t1⟩ := r
        obtain ⟨hWF1, hlf1, _, _, _, hcnt1, hlook1, _⟩ :=
          insertF_spec hL (fuel + 1) t k 0 b1 t1 hWF hi
        have hl1 : lookupT cfg t1 k = some 0 := by
          rw [hlook1 k, if_pos rfl]
        obtain ⟨e1, hf1, hd1⟩ : ∃ e1, (bucketAt t1 (cfg.hash k % t1.m_size)).find? (keyPred cfg k) = some e1 ∧ e1.m_data = 0 := by
          unfold lookupT at hl1
          rcases hf1 : (bucketAt t1 (cfg.hash k % t1.m_size)).find? (keyPred cfg k) with _ | e1
          · rw [hf1] at hl1
            exact absurd hl1 (by simp)
          · rw [hf1] at hl1
            exact ⟨e1, rfl, by simpa using hl1⟩
        replace h : index_accessF cfg fuel t1 k = some (d, t') := h
        rcases fuel with _ | g
        · exact absurd h (by simp [index_accessF])
        · rw [show index_accessF cfg (g + 1) t1 k =
              (match (bucketAt t1 (cfg.hash k % t1.m_size)).find? (fun e => k == e.m_key) with
              | some e => some (e.m_data, t1)
              | none =>
                match insertF cfg (g + 1) t1 k 0 with
                | none => none
                | some (_, t2) => index_accessF cfg g t2 k) from rfl, hpredeq, hf1] at h
          have h' : (e1.m_data, t1) = (d, t') := by simpa using h
          injection h' with hd ht'
          right
          refine ⟨habs, by rw [← hd, hd1], ?_, ?_, by rw [← ht']; exact hlf1, ?_⟩
          · rw [← ht']
            exact hWF1
          · rw [← ht', hcnt1, habs]
            rfl
          · intro k'
            rw [← ht', hlook1 k']
    · rw [hf] at h
      have h' : (e.m_data, t) = (d, t') := by simpa using h
      injection h' with hd ht'
      left
      refine ⟨e.m_data, ?_, hd.symm, ht'.symm⟩
      unfold lookupT
      rw [hf]
      rfl

/-- Count consistency along any call sequence: the final count equals the
initial count plus successful inserts minus successful erases (stated
additively), and the count always equals the number of stored entries. -/
lemma runOps_spec {cfg : Config} (hL : LawfulCfg cfg) (fuel : Nat) :
    ∀ (ops : List TblOp) (t : HashTbl) (a b : Nat) (t' : HashTbl) (a' b' : Nat),
      WF cfg t → runOps cfg fuel ops t a b = some (t', a', b') →
      WF cfg t' ∧ t'.m_count + a + b' = t.m_count + a' + b
  | [], t, a, b, t', a', b', hWF, h => by
    unfold runOps at h
    have : (t, a, b) = (t', a', b') := Option.some_inj.mp h
    injection this with h1 h2
    injection h2 with h2 h3
    subst h1
    subst h2
    subst h3
    exact ⟨hWF, rfl⟩
  | TblOp.insOp k v :: ops, t, a, b, t', a', b', hWF, h => by
    unfold runOps at h
    rcases hi : insertF cfg fuel t k v with _ | r
    · rw [hi] at h
      exact absurd h (by simp)
    · rw [hi] at h
      obtain ⟨r1, t1⟩ := r
      obtain ⟨hWF1, _, _, _, hb1, hcnt1, _, _⟩ :=
        insertF_spec hL fuel t k v r1 t1 hWF hi
      obtain ⟨hWF2, hcnt2⟩ := runOps_spec hL fuel ops t1 (if r1 then a + 1 else a) b t' a' b' hWF1 h
      refine ⟨hWF2, ?_⟩
      rcases hlk : (lookupT cfg t k).isNone
      · rw [hlk] at hb1 hcnt1
        rw [hb1] at hcnt2
        simp at hcnt1 hcnt2
        omega
      · rw [hlk] at hb1 hcnt1
        rw [hb1] at hcnt2
        simp at hcnt1 hcnt2
        omega
  | TblOp.delOp k :: ops, t, a, b, t', a', b', hWF, h => by
    unfold runOps at h
    obtain ⟨hflag, hWF1, _, _, hcnt1, _⟩ := erase_spec hL hWF k
    rcases he : erase cfg t k with ⟨r1, t1⟩
    rw [he] at h hflag hWF1 hcnt1
    dsimp only at h hflag hWF1 hcnt1
    obtain ⟨hWF2, hcnt2⟩ := runOps_spec hL fuel ops t1 a (if r1 then b + 1 else b) t' a' b' hWF1 h
    refine ⟨hWF2, ?_⟩
    rcases hlk : (lookupT cfg t k).isSome
    · rw [hlk] at hflag hcnt1
      rw [hflag] at hcnt2
      simp at hcnt1 hcnt2
      omega
    · rw [hlk] at hflag hcnt1
      rw [hflag] at hcnt2
      simp at hcnt1 hcnt2
      omega

/-- C1: for every sequence of `insert(k, v)` calls on a (well-formed) table,
afterwards the keys stored in the whole table are pairwise distinct — exactly
one Entry exists per distinct key — and the entry stored for each inserted key
carries the value of the last `insert` for that key (`applyEntries` is the
last-write-wins association semantics of the call sequence). -/
theorem claim_C1 (cfg : Config) (hL : LawfulCfg cfg) (fuel : Nat) (es : List HashEntry)
    (t t' : HashTbl) (hWF : WF cfg t)
    (h : insertList (insertF cfg fuel) es t = some t') :
    ((entries t').map HashEntry.m_key).Nodup ∧
    ∀ k v, applyEntries es (lookupT cfg t) k = some v →
      (entries t').countP (fun e => e.m_key == k) = 1 ∧ HashEntry.mk k v ∈ entries t' := by
  obtain ⟨hWF', _, _, _, _, hlook, _⟩ :=
    insertList_spec (fun t k v b t' hW hi => insertF_spec hL fuel t k v b t' hW hi) es t t' hWF h
  refine ⟨hWF'.2.2.2.1, ?_⟩
  intro k v hkv
  have hl : lookupT cfg t' k = some v := by rw [hlook k, hkv]
  have hmem := (lookupT_some_iff_mem hL hWF' k v).mp hl
  exact ⟨countP_key_eq_one hWF'.2.2.2.1 hmem, hmem⟩

theorem claim_C1_witness :
    (entries tDup).countP (fun e => e.m_key == 1) = 1 ∧ HashEntry.mk 1 20 ∈ entries tDup :=
  (claim_C1 defaultCfg lawful_defaultCfg 5 esDup (mkHashTbl 10) tDup (by decide)
    (by decide)).2 1 20 (by decide)

/-- C4 (amended): `is_prime` decides primality correctly for every `n ≥ 2`
but wrongly accepts 1; `find_next_prime` returns the least `is_prime`-accepted
value `≥ n` (hence the least prime for `n ≥ 2`); consequently capacity is
prime after construction with requested capacity `≥ 2` and after every rehash
(`2 × old ≥ 2`), and insert preserves primality of the capacity — but
requested capacities 0 and 1 yield the non-prime capacity 1. -/
theorem claim_C4 :
    (∀ n, 2 ≤ n → (is_prime n = true ↔ Nat.Prime n)) ∧
    (∀ n, n ≤ find_next_prime n ∧ is_prime (find_next_prime n) = true ∧
      ∀ j, n ≤ j → j < find_next_prime n → is_prime j = false) ∧
    (∀ n, 2 ≤ n → Nat.Prime (find_next_prime n)) ∧
    (∀ sz, 2 ≤ sz → Nat.Prime (mkHashTbl sz).m_size) ∧
    (∀ s, 1 ≤ s → Nat.Prime (find_next_prime (2 * s))) ∧
    (∀ cfg fuel t k v b t', LawfulCfg cfg → WF cfg t → Nat.Prime t.m_size →
      insertF cfg fuel t k v = some (b, t') → Nat.Prime t'.m_size) := by
  refine ⟨?_, ?_, ?_, ?_, ?_, ?_⟩
  · intro n h2
    constructor
    · intro h
      rcases (is_prime_iff n).mp h with hp | h1
      · exact hp
      · omega
    · exact is_prime_of_prime
  · exact fun n => ⟨find_next_prime_ge n, find_next_prime_is_prime n, find_next_prime_least n⟩
  · exact fun n h => find_next_prime_prime h
  · intro sz h
    show Nat.Prime (find_next_prime sz)
    exact find_next_prime_prime h
  · intro s h
    exact find_next_prime_prime (by omega)
  · intro cfg fuel t k v b t' hL hWF hp h
    obtain ⟨_, _, _, hdisj, _, _, _, _⟩ := insertF_spec hL fuel t k v b t' hWF h
    rcases hdisj with h' | h'
    · rwa [h']
    · exact h'

theorem claim_C4_cex :
    is_prime 1 = true ∧ ¬ Nat.Prime 1 ∧
    (mkHashTbl 0).m_size = 1 ∧ ¬ Nat.Prime (mkHashTbl 0).m_size ∧
    (mkHashTbl 1).m_size = 1 := by
  refine ⟨by decide, by norm_num, by decide, ?_, by decide⟩
  rw [show (mkHashTbl 0).m_size = 1 from by decide]
  norm_num

theorem claim_C4_witness : Nat.Prime (mkHashTbl 10).m_size :=
  claim_C4.2.2.2.1 10 (by norm_num)

/-- C5: after any call sequence of inserts and erases that completes, `size()`
equals the total number of entries across all buckets, and (stated
additively) the size change balances the number of inserts that returned
true against the number of erases that returned true. -/
theorem claim_C5 (cfg : Config) (hL : LawfulCfg cfg) (fuel : Nat) (ops : List TblOp)
    (t : HashTbl) (a b : Nat) (t' : HashTbl) (a' b' : Nat) (hWF : WF cfg t)
    (h : runOps cfg fuel ops t a b = some (t', a', b')) :
    size t' = (entries t').length ∧ size t' + a + b' = t.m_count + a' + b := by
  obtain ⟨hWF', hcnt⟩ := runOps_spec hL fuel ops t a b t' a' b' hWF h
  exact ⟨hWF'.2.2.1, hcnt⟩

theorem claim_C5_witness :
    size runSc.1 = (entries runSc.1).length ∧
    size runSc.1 + 0 + runSc.2.2 = (mkHashTbl 10).m_count + runSc.2.1 + 0 :=
  claim_C5 defaultCfg lawful_defaultCfg 5 opsSc (mkHashTbl 10) 0 0 runSc.1 runSc.2.1 runSc.2.2
    (by decide) (by decide)

/-- C8: `at` returns the stored value exactly when an entry with the key
exists anywhere in the table (there is at most one, by key uniqueness), and
fails with `KeyNotFound` (modelled as `none`) exactly when no such entry
exists; `at` takes no table and returns none, so it never mutates. -/
theorem claim_C8 (cfg : Config) (hL : LawfulCfg cfg) (t : HashTbl) (k : Nat)
    (hWF : WF cfg t) :
    (∀ v, atT cfg t k = some v ↔ HashEntry.mk k v ∈ entries t) ∧
    (atT cfg t k = none ↔ ∀ v, HashEntry.mk k v ∉ entries t) := by
  constructor
  · intro v
    rw [atT_eq_lookupT]
    exact lookupT_some_iff_mem hL hWF k v
  · rw [atT_eq_lookupT]
    constructor
    · intro h v hv
      have := (lookupT_some_iff_mem hL hWF k v).mpr hv
      rw [h] at this
      exact absurd this (by simp)
    · intro h
      rw [lookupT_none_iff hL hWF k]
      intro hmem
      rw [List.mem_map] at hmem
      obtain ⟨e, he, hek⟩ := hmem
      refine h e.m_data ?_
      have : e = HashEntry.mk k e.m_data := by
        cases e
        simp_all
      rwa [this] at he

theorem claim_C8_witness : atT defaultCfg (mkHashTbl 10) 42 = none :=
  (claim_C8 defaultCfg lawful_defaultCfg (mkHashTbl 10) 42 (by decide)).2.mpr
    (fun v hv => by
      rw [entries_mkHashTbl] at hv
      exact absurd hv (List.not_mem_nil _))

/-- C9: `count(key)` returns 0 when no entry with the key exists in the table,
and otherwise the full length of the key's bucket chain — including unrelated
colliding entries — rather than 1. -/
theorem claim_C9 (cfg : Config) (hL : LawfulCfg cfg) (t : HashTbl) (k : Nat)
    (hWF : WF cfg t) :
    countK cfg t k =
      if k ∈ (entries t).map HashEntry.m_key
      then (bucketAt t (cfg.hash k % t.m_size)).length
      else 0 :=
  countK_spec hL hWF k

theorem claim_C9_witness :
    countK defaultCfg tSc4 16 = 3 ∧ countK defaultCfg tSc4 16 ≠ 1 := by
  have h := claim_C9 defaultCfg lawful_defaultCfg tSc4 16 (by decide)
  rw [h]
  decide

/-- C10 (amended): every public operation other than `insert` (and the
operations that call it) is a total function of the state; `insert`, including
every rehash it triggers, terminates from every well-formed state whenever
`max_load_factor > 0` — but NOT for every settable value: for
`max_load_factor ≤ 0` it recurses forever (see the counterexample). -/
theorem claim_C10 (cfg : Config) (hL : LawfulCfg cfg) (t : HashTbl) (hWF : WF cfg t)
    (hpos : 0 < t.m_load_factor) (k v : Nat) :
    ∃ fuel b t', insertF cfg fuel t k v = some (b, t') :=
  insertF_terminates hL hWF hpos k v

theorem claim_C10_witness :
    ∃ fuel b t', insertF defaultCfg fuel (mkHashTbl 10) 5 7 = some (b, t') :=
  claim_C10 defaultCfg lawful_defaultCfg (mkHashTbl 10) (by decide) (by decide) 5 7

theorem claim_C10_cex : insertDiverges defaultCfg tZero 5 7 :=
  fun fuel => insertF_diverges_of_nonpos lawful_defaultCfg fuel tZero 5 7 (by decide) (by decide)

/-- If the budget after a rehash admits the whole reinserted content, the
rehash ends at exactly `find_next_prime (2 * old)` buckets. -/
lemma rehashWith_size_eq {cfg : Config} (hL : LawfulCfg cfg) (fuel : Nat)
    {t1 t2 : HashTbl} (hWF1 : WF cfg t1)
    (hr : rehashWith (insertF cfg fuel) t1 = some t2)
    (hbudget : (t1.m_count : ℚ) ≤ t1.m_load_factor * ((find_next_prime (2 * t1.m_size) : ℚ))) :
    t2.m_size = find_next_prime (2 * t1.m_size) := by
  unfold rehashWith at hr
  have hWF0 : WF cfg { m_size := find_next_prime (2 * t1.m_size), m_count := 0, m_load_factor := t1.m_load_factor, m_table := List.replicate (find_next_prime (2 * t1.m_size)) [] } :=
    WF_freshTable cfg _ (find_next_prime_pos _) _
  have hlen : (t1.m_table.flatten).length = t1.m_count := (hWF1.2.2.1).symm
  refine insertList_size_const hL fuel t1.m_table.flatten _ t2 hWF0 ?_ hr
  show (((0:ℕ):ℚ) + ((t1.m_table.flatten).length : ℚ) ≤ t1.m_load_factor * ((find_next_prime (2 * t1.m_size) : ℚ)))
  rw [hlen]
  push_cast
  linarith

/-- C2 (amended): under the default `max_load_factor = 1.0`, inserting a fresh
key into an exactly full table (count = capacity, so the post-insert ratio
strictly exceeds 1.0) returns true, rehashes to exactly capacity
`find_next_prime (2 * old_capacity)`, increments the count for the new key
only, and keeps every previously inserted key retrievable with its last value.
(For small positive load-factor settings the reinsertion pass can re-trip the
check and grow past `find_next_prime (2 * old)` — see the counterexample.) -/
theorem claim_C2 (cfg : Config) (hL : LawfulCfg cfg) (fuel : Nat) (t : HashTbl)
    (k v : Nat) (b : Bool) (t' : HashTbl) (hWF : WF cfg t)
    (hmlf : t.m_load_factor = 1) (habs : lookupT cfg t k = none)
    (hfull : t.m_count = t.m_size)
    (h : insertF cfg fuel t k v = some (b, t')) :
    b = true ∧ t'.m_size = find_next_prime (2 * t.m_size) ∧
    t'.m_count = t.m_count + 1 ∧
    (∀ k', lookupT cfg t' k' = if k' = k then some v else lookupT cfg t k') := by
  obtain ⟨hWF', hlf', hszle', hdisj', hb', hcnt', hlook', hnr'⟩ :=
    insertF_spec hL fuel t k v b t' hWF h
  refine ⟨by rw [hb', habs]; rfl, ?_, by rw [hcnt', habs]; rfl, hlook'⟩
  rcases fuel with _ | g
  · exact absurd h (by rw [show insertF cfg 0 t k v = none from rfl]; simp)
  · have hsz := hWF.2.1
    rw [insertF_succ] at h
    have hfind : (bucketAt t (cfg.hash k % t.m_size)).find? (keyPred cfg k) = none := by
      rcases hf : (bucketAt t (cfg.hash k % t.m_size)).find? (keyPred cfg k) with _ | e
      · rfl
      · exfalso
        unfold lookupT at habs
        rw [hf] at habs
        exact absurd habs (by simp)
    obtain ⟨hWF1, hsz1, hlf1, hcnt1, hlook1⟩ :=
      insert_mutation_absent hL hWF k v habs (rfl : insertAbsentTbl cfg t k v = _)
    have htrig : loadFactorExceeded (insertAbsentTbl cfg t k v) = true := by
      rw [loadFactorExceeded_iff _ (by rw [hsz1]; exact hsz)]
      rw [hsz1, hlf1, hcnt1, hmlf, hfull]
      have hq : (0:ℚ) < (t.m_size : ℚ) := by exact_mod_cast hsz
      rw [lt_div_iff₀ hq]
      push_cast
      linarith
    have hbudget : ((insertAbsentTbl cfg t k v).m_count : ℚ) ≤ (insertAbsentTbl cfg t k v).m_load_factor * ((find_next_prime (2 * (insertAbsentTbl cfg t k v).m_size) : ℚ)) := by
      rw [hcnt1, hlf1, hsz1, hmlf, hfull, one_mul]
      have h2 : t.m_size + 1 ≤ find_next_prime (2 * t.m_size) :=
        le_trans (by omega) (find_next_prime_ge _)
      exact_mod_cast h2
    have hrest : (if loadFactorExceeded (insertAbsentTbl cfg t k v) then
          (rehashWith (insertF cfg g) (insertAbsentTbl cfg t k v)).map (fun t2 => (true, t2))
        else some (true, insertAbsentTbl cfg t k v)) = some (b, t') →
        t'.m_size = find_next_prime (2 * t.m_size) := by
      intro hh
      rw [if_pos htrig] at hh
      rcases hr : rehashWith (insertF cfg g) (insertAbsentTbl cfg t k v) with _ | t2
      · rw [hr] at hh
        exact absurd hh (by simp)
      · rw [hr] at hh
        have h2 : (true, t2) = (b, t') := by simpa using hh
        have ht2 : t2 = t' := congrArg Prod.snd h2
        have hgoal := rehashWith_size_eq hL g hWF1 hr hbudget
        rw [hsz1] at hgoal
        rw [← ht2]
        exact hgoal
    by_cases hbe : (bucketAt t (cfg.hash k % t.m_size)).isEmpty = true
    · rw [if_pos hbe] at h
      exact hrest h
    · rw [if_neg hbe] at h
      rw [hfind] at h
      exact hrest h

theorem claim_C2_witness :
    (mkHashTbl 10).m_size = 11 ∧ tSc1.m_size = 11 ∧ tSc1.m_count = 11 ∧
    insertF defaultCfg 5 tSc1 12 99 = some (true, tSc1r) ∧
    tSc1r.m_size = find_next_prime (2 * tSc1.m_size) ∧ tSc1r.m_size = 23 ∧
    tSc1r.m_count = 12 ∧
    retrieve defaultCfg tSc1r 7 0 = (true, 7) ∧
    retrieve defaultCfg tSc1r 12 0 = (true, 99) := by
  have h : insertF defaultCfg 5 tSc1 12 99 = some (true, tSc1r) := by decide
  have hc := claim_C2 defaultCfg lawful_defaultCfg 5 tSc1 12 99 true tSc1r (by decide)
    (by decide) (by decide) (by decide) h
  exact ⟨by decide, by decide, by decide, h, hc.2.1, by decide, by decide, by decide, by decide⟩

theorem claim_C2_cex :
    loadFactorExceeded (insertAbsentTbl defaultCfg tLow 2 2) = true ∧
    insertF defaultCfg 5 tLow 2 2 = some (true, tLowr) ∧
    find_next_prime (2 * tLow.m_size) = 2 ∧ tLowr.m_size = 11 ∧
    tLowr.m_size ≠ find_next_prime (2 * tLow.m_size) ∧
    retrieve defaultCfg tLowr 1 0 = (true, 1) := by decide

/-- C3: on every completed `insert(k, v)`: if no entry with key k exists, the
result (absent a rehash trigger) is exactly the prepended-entry table with the
count incremented, and the return value is true; if an entry exists, the
result (absent a trigger) is exactly the in-place overwritten table with the
count unchanged, and the return value is false; and in BOTH branches the
load-factor check runs on the mutated table — including the overwrite branch,
where a trigger performs a genuine rehash growing the capacity to at least
`find_next_prime (2 * old)`. -/
theorem claim_C3 (cfg : Config) (hL : LawfulCfg cfg) (fuel : Nat) (t : HashTbl)
    (k v : Nat) (b : Bool) (t' : HashTbl) (hWF : WF cfg t)
    (h : insertF cfg fuel t k v = some (b, t')) :
    (lookupT cfg t k = none →
      b = true ∧ t'.m_count = t.m_count + 1 ∧ lookupT cfg t' k = some v ∧
      (loadFactorExceeded (insertAbsentTbl cfg t k v) = false →
        t' = insertAbsentTbl cfg t k v) ∧
      (loadFactorExceeded (insertAbsentTbl cfg t k v) = true →
        find_next_prime (2 * t.m_size) ≤ t'.m_size ∧ t.m_size < t'.m_size)) ∧
    (∀ v0, lookupT cfg t k = some v0 →
      b = false ∧ t'.m_count = t.m_count ∧ lookupT cfg t' k = some v ∧
      (loadFactorExceeded (insertPresentTbl cfg t k v) = false →
        t' = insertPresentTbl cfg t k v) ∧
      (loadFactorExceeded (insertPresentTbl cfg t k v) = true →
        find_next_prime (2 * t.m_size) ≤ t'.m_size ∧ t.m_size < t'.m_size)) := by
  obtain ⟨hWF', hlf', hszle', hdisj', hb', hcnt', hlook', hnr'⟩ :=
    insertF_spec hL fuel t k v b t' hWF h
  have hlookk : lookupT cfg t' k = some v := by rw [hlook' k, if_pos rfl]
  rcases fuel with _ | g
  · exact absurd h (by rw [show insertF cfg 0 t k v = none from rfl]; simp)
  · have hsz := hWF.2.1
    rw [insertF_succ] at h
    have hgrow : ∀ (t1 t2 : HashTbl), WF cfg t1 → t1.m_size = t.m_size →
        rehashWith (insertF cfg g) t1 = some t2 →
        find_next_prime (2 * t.m_size) ≤ t2.m_size ∧ t.m_size < t2.m_size := by
      intro t1 t2 hWF1 hsz1 hr
      obtain ⟨_, _, hszle2, _, _, _⟩ :=
        rehashWith_spec (fun t k v b t' hW hi => insertF_spec hL g t k v b t' hW hi) hWF1 hL hr
      rw [hsz1] at hszle2
      have h2 : t.m_size + 1 ≤ find_next_prime (2 * t.m_size) :=
        le_trans (by omega) (find_next_prime_ge _)
      exact ⟨hszle2, by omega⟩
    have habsBranch : lookupT cfg t k = none →
        (if loadFactorExceeded (insertAbsentTbl cfg t k v) then
          (rehashWith (insertF cfg g) (insertAbsentTbl cfg t k v)).map (fun t2 => (true, t2))
        else some (true, insertAbsentTbl cfg t k v)) = some (b, t') →
        (lookupT cfg t k = none →
          b = true ∧ t'.m_count = t.m_count + 1 ∧ lookupT cfg t' k = some v ∧
          (loadFactorExceeded (insertAbsentTbl cfg t k v) = false →
            t' = insertAbsentTbl cfg t k v) ∧
          (loadFactorExceeded (insertAbsentTbl cfg t k v) = true →
            find_next_prime (2 * t.m_size) ≤ t'.m_size ∧ t.m_size < t'.m_size)) ∧
        (∀ v0, lookupT cfg t k = some v0 →
          b = false ∧ t'.m_count = t.m_count ∧ lookupT cfg t' k = some v ∧
          (loadFactorExceeded (insertPresentTbl cfg t k v) = false →
            t' = insertPresentTbl cfg t k v) ∧
          (loadFactorExceeded (insertPresentTbl cfg t k v) = true →
            find_next_prime (2 * t.m_size) ≤ t'.m_size ∧ t.m_size < t'.m_size)) := by
      intro habs hh
      obtain ⟨hWF1, hsz1, hlf1, hcnt1, hlook1⟩ :=
        insert_mutation_absent hL hWF k v habs (rfl : insertAbsentTbl cfg t k v = _)
      refine ⟨fun _ => ⟨by rw [hb', habs]; rfl, by rw [hcnt', habs]; rfl, hlookk, ?_, ?_⟩,
        fun v0 hv0 => absurd hv0 (by rw [habs]; simp)⟩
      · intro hnotrig
        rw [hnotrig] at hh
        simp only [Bool.false_eq_true, if_false] at hh
        have h2 : (true, insertAbsentTbl cfg t k v) = (b, t') := by simpa using hh
        exact (congrArg Prod.snd h2).symm
      · intro htrig
        rw [if_pos htrig] at hh
        rcases hr : rehashWith (insertF cfg g) (insertAbsentTbl cfg t k v) with _ | t2
        · rw [hr] at hh
          exact absurd hh (by simp)
        · rw [hr] at hh
          have h2 : (true, t2) = (b, t') := by simpa using hh
          have ht2 : t2 = t' := congrArg Prod.snd h2
          rw [← ht2]
          exact hgrow _ t2 hWF1 hsz1 hr
    by_cases hbe : (bucketAt t (cfg.hash k % t.m_size)).isEmpty = true
    · rw [if_pos hbe] at h
      have habs : lookupT cfg t k = none := by
        unfold lookupT
        rw [List.isEmpty_iff.mp hbe]
        rfl
      exact habsBranch habs h
    · rw [if_neg hbe] at h
      rcases hf : (bucketAt t (cfg.hash k % t.m_size)).find? (keyPred cfg k) with _ | e0
      · rw [hf] at h
        have habs : lookupT cfg t k = none := by
          unfold lookupT
          rw [hf]
          rfl
        exact habsBranch habs h
      · rw [hf] at h
        replace h : (if loadFactorExceeded (insertPresentTbl cfg t k v) then
            (rehashWith (insertF cfg g) (insertPresentTbl cfg t k v)).map (fun t2 => (false, t2))
          else some (false, insertPresentTbl cfg t k v)) = some (b, t') := h
        have hpres : lookupT cfg t k = some e0.m_data := by
          unfold lookupT
          rw [hf]
          rfl
        obtain ⟨hWF1, hsz1, hlf1, hcnt1, hlook1⟩ :=
          insert_mutation_present hL hWF k v e0.m_data hpres (rfl : insertPresentTbl cfg t k v = _)
        refine ⟨fun habs => absurd habs (by rw [hpres]; simp),
          fun v0 hv0 => ⟨by rw [hb', hv0]; rfl, by rw [hcnt', hv0]; rfl, hlookk, ?_, ?_⟩⟩
        · intro hnotrig
          rw [hnotrig] at h
          simp only [Bool.false_eq_true, if_false] at h
          have h2 : (false, insertPresentTbl cfg t k v) = (b, t') := by simpa using h
          exact (congrArg Prod.snd h2).symm
        · intro htrig
          rw [if_pos htrig] at h
          rcases hr : rehashWith (insertF cfg g) (insertPresentTbl cfg t k v) with _ | t2
          · rw [hr] at h
            exact absurd h (by simp)
          · rw [hr] at h
            have h2 : (false, t2) = (b, t') := by simpa using h
            have ht2 : t2 = t' := congrArg Prod.snd h2
            rw [← ht2]
            exact hgrow _ t2 hWF1 hsz1 hr

theorem claim_C3_witness :
    insertF defaultCfg 5 (mkHashTbl 10) 3 42 = some (true, tIns3) ∧
    tIns3 = insertAbsentTbl defaultCfg (mkHashTbl 10) 3 42 ∧
    tIns3.m_count = (mkHashTbl 10).m_count + 1 := by
  have h : insertF defaultCfg 5 (mkHashTbl 10) 3 42 = some (true, tIns3) := by decide
  have hc := claim_C3 defaultCfg lawful_defaultCfg 5 (mkHashTbl 10) 3 42 true tIns3
    (by decide) h
  obtain ⟨_, hcnt, _, hno, _⟩ := hc.1 (by decide)
  exact ⟨h, hno (by decide), hcnt⟩

/-- C6 (amended): the initializer-list ASSIGNMENT derives its capacity as
`find_next_prime(number_of_elements)` and inserts every element through the
normal insert path (later duplicates overwrite earlier ones) — but the
initializer-list CONSTRUCTOR does not: it delegates to the default
constructor, so its capacity is the default `find_next_prime 10 = 11`
independent of the element count (it only grows past that if the elements
overflow the default table); both have the last-write-wins association
semantics of the element list. -/
theorem claim_C6 (cfg : Config) (hL : LawfulCfg cfg) (fuel : Nat) (es : List HashEntry)
    (tc ta : HashTbl)
    (hc : initListCtorF cfg fuel es = some tc)
    (ha : assignInitListF cfg fuel es = some ta) :
    (WF cfg tc ∧ (es.length ≤ (mkHashTbl 10).m_size → tc.m_size = (mkHashTbl 10).m_size) ∧
      (∀ k, lookupT cfg tc k = applyEntries es (fun _ => none) k)) ∧
    (WF cfg ta ∧ ta.m_size = find_next_prime es.length ∧
      (∀ k, lookupT cfg ta k = applyEntries es (fun _ => none) k)) := by
  unfold initListCtorF at hc
  unfold assignInitListF at ha
  have hins := fun t k v b t' hW hi => insertF_spec hL fuel t k v b t' hW hi
  have hWFa : WF cfg { m_size := find_next_prime es.length, m_count := 0, m_load_factor := 1, m_table := List.replicate (find_next_prime es.length) [] } :=
    WF_freshTable cfg _ (find_next_prime_pos _) 1
  obtain ⟨hWFc', _, _, _, _, hlookc, _⟩ :=
    insertList_spec hins es (mkHashTbl 10) tc (WF_mkHashTbl cfg 10) hc
  obtain ⟨hWFa', _, _, _, _, hlooka, _⟩ :=
    insertList_spec hins es _ ta hWFa ha
  refine ⟨⟨hWFc', ?_, ?_⟩, ⟨hWFa', ?_, ?_⟩⟩
  · intro hlen
    refine insertList_size_const hL fuel es _ tc (WF_mkHashTbl cfg 10) ?_ hc
    show (((0:ℕ):ℚ) + (es.length : ℚ) ≤ 1 * (((mkHashTbl 10).m_size : ℚ)))
    have hlq : (es.length : ℚ) ≤ ((mkHashTbl 10).m_size : ℚ) := by exact_mod_cast hlen
    push_cast
    linarith
  · intro k
    rw [hlookc k]
    exact applyEntries_congr es _ _ (fun k' => lookupT_mkHashTbl cfg 10 k') k
  · refine insertList_size_const hL fuel es _ ta hWFa ?_ ha
    show (((0:ℕ):ℚ) + (es.length : ℚ) ≤ 1 * ((find_next_prime es.length : ℚ)))
    have hlq : (es.length : ℚ) ≤ ((find_next_prime es.length : ℚ)) := by
      exact_mod_cast find_next_prime_ge es.length
    push_cast
    linarith
  · intro k
    rw [hlooka k]
    exact applyEntries_congr es _ _ (fun k' => lookupT_freshTable cfg _ _ k') k

theorem claim_C6_witness :
    tIl3.m_size = (mkHashTbl 10).m_size ∧ tAs3.m_size = find_next_prime esIl3.length ∧
    lookupT defaultCfg tIl3 2 = applyEntries esIl3 (fun _ => none) 2 := by
  have hc6 := claim_C6 defaultCfg lawful_defaultCfg 5 esIl3 tIl3 tAs3 (by decide) (by decide)
  exact ⟨hc6.1.2.1 (by decide), hc6.2.2.1, hc6.1.2.2 2⟩

theorem claim_C6_cex :
    tIl3.m_size = 11 ∧ find_next_prime esIl3.length = 3 ∧
    tIl3.m_size ≠ find_next_prime esIl3.length := by decide

/-- C7 (amended): under a configuration whose `KeyEqual` agrees with the key
type's `==` (in particular the default configuration), `operator[]` on a hit
returns the stored value leaving the table untouched, and on a miss inserts a
default-constructed value (0) through the normal insert path (load-factor
check and possible rehash included) and returns it; in both cases a subsequent
`retrieve` of the key through the configured predicate sees any value written
through the returned reference.  (For a `KeyEqual` differing from `==` the
lookup scan of `operator[]` disagrees with every other member — see the
counterexample.) -/
theorem claim_C7 (cfg : Config) (hL : LawfulCfg cfg) (fuel : Nat) (t : HashTbl)
    (k d : Nat) (t' : HashTbl) (hWF : WF cfg t)
    (h : index_accessF cfg fuel t k = some (d, t')) :
    ((∃ v0, lookupT cfg t k = some v0 ∧ d = v0 ∧ t' = t) ∨
     (lookupT cfg t k = none ∧ d = 0 ∧ t'.m_count = t.m_count + 1 ∧
      lookupT cfg t' k = some 0)) ∧
    ∀ w out, retrieve cfg (writeThrough cfg t' k w) k out = (true, w) := by
  have hia := index_accessF_spec hL fuel k d t' hWF h
  constructor
  · rcases hia with ⟨v0, hv, hd, ht⟩ | ⟨hn, hd, _, hcnt, _, hupd⟩
    · exact Or.inl ⟨v0, hv, hd, ht⟩
    · exact Or.inr ⟨hn, hd, hcnt, by rw [hupd k, if_pos rfl]⟩
  · intro w out
    rcases hia with ⟨v0, hv, _, ht⟩ | ⟨_, _, hWF', _, _, hupd⟩
    · subst ht
      exact retrieve_writeThrough hL hWF hv w out
    · exact retrieve_writeThrough hL hWF' (by rw [hupd k, if_pos rfl]) w out

theorem claim_C7_witness :
    index_accessF defaultCfg 5 (mkHashTbl 10) 4 = some (0, tIdx) ∧
    retrieve defaultCfg (writeThrough defaultCfg tIdx 4 77) 4 0 = (true, 77) := by
  have h : index_accessF defaultCfg 5 (mkHashTbl 10) 4 = some (0, tIdx) := by decide
  exact ⟨h, (claim_C7 defaultCfg lawful_defaultCfg 5 (mkHashTbl 10) 4 0 tIdx
    (by decide) h).2 77 0⟩

theorem claim_C7_cex :
    ((bucketAt tAll (cfgAll.hash 1 % tAll.m_size)).find? (keyPred cfgAll 1)).isSome = true ∧
    retrieve cfgAll tAll 1 99 = (true, 5) ∧
    index_accessF cfgAll 5 tAll 1 = some (0, tAllx) ∧
    retrieve cfgAll tAllx 1 99 ≠ (true, 5) := by decide
